import Mathlib

/-!
Verification of the names-search backend core (cursor codec, dual-path search,
bulk-publish pipeline) against a shallow embedding of its TypeScript source.

Machine numbers are modelled as `Nat`/`Int`/`Rat` (ids are Postgres `int4`,
far below 2^53, so JS number arithmetic on them is exact); fallible paths
return `Option`/`Except`; database tables are lists of rows and every
statement's effect is given as a pure function on that state.
-/

namespace NamesSearch

/-! ### Decimal digits: model of JS `String(n)` for a nonnegative integer -/

/-- The decimal digit character for `d` (callers keep `d < 10`). -/
def digitChar (d : Nat) : Char :=
  match d with
  | 0 => '0' | 1 => '1' | 2 => '2' | 3 => '3' | 4 => '4'
  | 5 => '5' | 6 => '6' | 7 => '7' | 8 => '8' | _ => '9'

/-- Decimal digits of `n`, least significant first. -/
def natDigitsRev (n : Nat) : List Char :=
  if h : n < 10 then [digitChar n]
  else digitChar (n % 10) :: natDigitsRev (n / 10)
decreasing_by
  have : 0 < n := by omega
  exact Nat.div_lt_self this (by omega)

/-- Character list of JS `String(n)` for a nonnegative integer `n`. -/
def jsDigits (n : Nat) : List Char := (natDigitsRev n).reverse

/-! ### UTF-8 (model of Node `Buffer.from(s, 'utf8')` / `buf.toString('utf8')`) -/

/-- UTF-8 bytes of one scalar value. -/
def utf8EncodeChar (c : Char) : List Nat :=
  let n := c.toNat
  if n < 0x80 then [n]
  else if n < 0x800 then [0xC0 + n / 64, 0x80 + n % 64]
  else if n < 0x10000 then [0xE0 + n / 4096, 0x80 + n / 64 % 64, 0x80 + n % 64]
  else [0xF0 + n / 262144, 0x80 + n / 4096 % 64, 0x80 + n / 64 % 64, 0x80 + n % 64]

/-- UTF-8 bytes of a character list. -/
def utf8Encode : List Char → List Nat
  | [] => []
  | c :: r => utf8EncodeChar c ++ utf8Encode r

/-- U+FFFD, emitted by Node for invalid UTF-8 input. -/
def replacementChar : Char := Char.ofNat 0xFFFD

/-- Is `b` a UTF-8 continuation byte? -/
def isCont (b : Nat) : Bool := 0x80 ≤ b && b < 0xC0

/-- UTF-8 decoding with U+FFFD substitution for invalid sequences (bad lead
or continuation bytes, overlong, surrogate and out-of-range encodings). The
`fuel` argument only makes the recursion structural (so that terms reduce);
it never runs out when it starts at the length of the byte list, since every
step consumes at least one byte. -/
def utf8DecodeGo : Nat → List Nat → List Char
  | _, [] => []
  | 0, _ => []
  | Nat.succ fuel, b :: rest =>
    if b < 0x80 then Char.ofNat b :: utf8DecodeGo fuel rest
    else if b < 0xC2 then replacementChar :: utf8DecodeGo fuel rest
    else if b < 0xE0 then
      match rest with
      | b2 :: r2 =>
        if isCont b2 then Char.ofNat ((b - 0xC0) * 64 + (b2 - 0x80)) :: utf8DecodeGo fuel r2
        else replacementChar :: utf8DecodeGo fuel (b2 :: r2)
      | [] => [replacementChar]
    else if b < 0xF0 then
      match rest with
      | b2 :: b3 :: r3 =>
        if isCont b2 && isCont b3 then
          if (b - 0xE0) * 4096 + (b2 - 0x80) * 64 + (b3 - 0x80) < 0x800 ∨
              (0xD800 ≤ (b - 0xE0) * 4096 + (b2 - 0x80) * 64 + (b3 - 0x80) ∧
                (b - 0xE0) * 4096 + (b2 - 0x80) * 64 + (b3 - 0x80) < 0xE000) then
            replacementChar :: utf8DecodeGo fuel r3
          else
            Char.ofNat ((b - 0xE0) * 4096 + (b2 - 0x80) * 64 + (b3 - 0x80)) :: utf8DecodeGo fuel r3
        else replacementChar :: utf8DecodeGo fuel (b2 :: b3 :: r3)
      | [_] => [replacementChar, replacementChar]
      | [] => [replacementChar]
    else if b < 0xF5 then
      match rest with
      | b2 :: b3 :: b4 :: r4 =>
        if isCont b2 && isCont b3 && isCont b4 then
          if (b - 0xF0) * 262144 + (b2 - 0x80) * 4096 + (b3 - 0x80) * 64 + (b4 - 0x80) < 0x10000 ∨
              0x110000 ≤ (b - 0xF0) * 262144 + (b2 - 0x80) * 4096 + (b3 - 0x80) * 64 + (b4 - 0x80) then
            replacementChar :: utf8DecodeGo fuel r4
          else
            Char.ofNat ((b - 0xF0) * 262144 + (b2 - 0x80) * 4096 + (b3 - 0x80) * 64 + (b4 - 0x80)) ::
              utf8DecodeGo fuel r4
        else replacementChar :: utf8DecodeGo fuel (b2 :: b3 :: b4 :: r4)
      | [_, _] => [replacementChar, replacementChar, replacementChar]
      | [_] => [replacementChar, replacementChar]
      | [] => [replacementChar]
    else replacementChar :: utf8DecodeGo fuel rest

/-- UTF-8 decoding of a byte list (model of `buf.toString('utf8')`). -/
def utf8Decode (l : List Nat) : List Char := utf8DecodeGo l.length l

/-! ### Base64 (model of Node `buf.toString('base64')` / `Buffer.from(s, 'base64')`) -/

/-- The standard base64 alphabet. -/
def b64Alphabet : List Char :=
  "ABCDEFGHIJKLMNOPQRSTUVWXYZabcdefghijklmnopqrstuvwxyz0123456789+/".toList

/-- Character for sextet `k` (callers keep `k < 64`). -/
def b64Char (k : Nat) : Char := b64Alphabet.getD k '='

/-- Sextet value of an alphabet character, `none` for padding and foreign
characters (Node's decoder skips those). -/
def b64Index (c : Char) : Option Nat := b64Alphabet.findIdx? (· = c)

/-- Base64 encoding of a byte list, with `=` padding. -/
def b64EncodeBytes : List Nat → List Char
  | [] => []
  | [a] => [b64Char (a / 4), b64Char (a % 4 * 16), '=', '=']
  | [a, b] => [b64Char (a / 4), b64Char (a % 4 * 16 + b / 16), b64Char (b % 16 * 4), '=']
  | a :: b :: c :: rest =>
    b64Char (a / 4) :: b64Char (a % 4 * 16 + b / 16) ::
      b64Char (b % 16 * 4 + c / 64) :: b64Char (c % 64) :: b64EncodeBytes rest

/-- Bytes recovered from a list of sextet values; a trailing lone sextet is
dropped, mirroring Node's forgiving decoder. -/
def b64DecodeSextets : List Nat → List Nat
  | [] => []
  | [_] => []
  | [x, y] => [x * 4 + y / 16]
  | [x, y, z] => [x * 4 + y / 16, y % 16 * 16 + z / 4]
  | x :: y :: z :: w :: rest =>
    (x * 4 + y / 16) :: (y % 16 * 16 + z / 4) :: (z % 4 * 64 + w) :: b64DecodeSextets rest

/-- `buf.toString('base64')`. -/
def b64EncodeStr (bs : List Nat) : String := String.mk (b64EncodeBytes bs)

/-- `Buffer.from(s, 'base64')`: non-alphabet characters (padding included) are
ignored, remaining sextets are grouped. -/
def b64DecodeStr (s : String) : List Nat :=
  b64DecodeSextets (s.toList.filterMap b64Index)

/-! ### JS `Number(string)` (ToNumber applied to a string) -/

/-- JS whitespace as trimmed by ToNumber (ASCII forms plus the common
Unicode ones; exotic Zs members are not modelled). -/
def isJsWhitespace (c : Char) : Bool :=
  c = ' ' || c = '\t' || c = '\n' || c = '\r' || c.toNat = 11 || c.toNat = 12 ||
    c.toNat = 0xA0 || c.toNat = 0x2028 || c.toNat = 0x2029 || c.toNat = 0xFEFF

/-- ASCII decimal digit test. -/
def isDigitChar (c : Char) : Bool := '0' ≤ c && c ≤ '9'

/-- Value of an ASCII decimal digit. -/
def digitVal (c : Char) : Nat := c.toNat - 48

/-- Value of a decimal digit string, most significant first. -/
def natOfDigits (l : List Char) : Nat := l.foldl (fun a c => 10 * a + digitVal c) 0

/-- Hex digit value. -/
def hexVal? (c : Char) : Option Nat :=
  if '0' ≤ c ∧ c ≤ '9' then some (c.toNat - 48)
  else if 'a' ≤ c ∧ c ≤ 'f' then some (c.toNat - 87)
  else if 'A' ≤ c ∧ c ≤ 'F' then some (c.toNat - 55)
  else none

/-- Digit value in a given radix (2, 8 or 16). -/
def radixVal? (radix : Nat) (c : Char) : Option Nat :=
  match hexVal? c with
  | some v => if v < radix then some v else none
  | none => none

/-- Value of a digit string in a given radix. -/
def natOfRadix (radix : Nat) (l : List Char) : Nat :=
  l.foldl (fun a c => radix * a + (radixVal? radix c).getD 0) 0

/-- Exponent part after `e`/`E`: optional sign then at least one digit. -/
def parseExponent (l : List Char) : Option Int :=
  match l with
  | '+' :: r => if r ≠ [] ∧ r.all isDigitChar then some (natOfDigits r : Int) else none
  | '-' :: r => if r ≠ [] ∧ r.all isDigitChar then some (-(natOfDigits r : Int)) else none
  | _ => if l ≠ [] ∧ l.all isDigitChar then some (natOfDigits l : Int) else none

/-- Unsigned decimal literal `digits [. digits] [e[sign]digits]` with at least
one mantissa digit. Values are exact rationals; IEEE double rounding is not
modelled (ids in this system are far below 2^53, where conversion is exact). -/
def parseDecimal (l : List Char) : Option ℚ :=
  let ip := l.takeWhile isDigitChar
  let r1 := l.dropWhile isDigitChar
  let fp :=
    match r1 with
    | '.' :: rr => rr.takeWhile isDigitChar
    | _ => []
  let r2 :=
    match r1 with
    | '.' :: rr => rr.dropWhile isDigitChar
    | _ => r1
  if ip.length + fp.length = 0 then none
  else
    let mant : ℚ := (natOfDigits ip : ℚ) + (natOfDigits fp : ℚ) / (10 : ℚ) ^ fp.length
    match r2 with
    | [] => some mant
    | c :: rr =>
      if c = 'e' ∨ c = 'E' then
        match parseExponent rr with
        | some e => some (mant * (10 : ℚ) ^ e)
        | none => none
      else none

/-- JS `Number(s)` on a string: trim, empty means 0, signed decimal /
`Infinity` / radix-prefixed integer, anything else is NaN. `none` stands for
every non-finite outcome (NaN and both infinities), which the caller's
`Number.isFinite` guard treats alike. -/
def jsNumber (s : String) : Option ℚ :=
  let t := ((s.toList.dropWhile isJsWhitespace).reverse.dropWhile isJsWhitespace).reverse
  if t.isEmpty then some 0
  else if t.head? = some '+' then
    if t.tail = "Infinity".toList then none else parseDecimal t.tail
  else if t.head? = some '-' then
    if t.tail = "Infinity".toList then none else (parseDecimal t.tail).map (fun q => -q)
  else if t.take 2 = ['0', 'x'] ∨ t.take 2 = ['0', 'X'] then
    if t.drop 2 ≠ [] ∧ (t.drop 2).all (fun c => (radixVal? 16 c).isSome) then
      some (natOfRadix 16 (t.drop 2) : ℚ)
    else none
  else if t.take 2 = ['0', 'o'] ∨ t.take 2 = ['0', 'O'] then
    if t.drop 2 ≠ [] ∧ (t.drop 2).all (fun c => (radixVal? 8 c).isSome) then
      some (natOfRadix 8 (t.drop 2) : ℚ)
    else none
  else if t.take 2 = ['0', 'b'] ∨ t.take 2 = ['0', 'B'] then
    if t.drop 2 ≠ [] ∧ (t.drop 2).all (fun c => (radixVal? 2 c).isSome) then
      some (natOfRadix 2 (t.drop 2) : ℚ)
    else none
  else if t = "Infinity".toList then none
  else parseDecimal t

/-! ### The cursor codec (src/utils/cursor.ts) -/

/-- `encodeCursor = (nameId) => Buffer.from(String(nameId), 'utf8').toString('base64')`. -/
def encodeCursor (nameId : Nat) : String := b64EncodeStr (utf8Encode (jsDigits nameId))

/-- `decodeCursor`: `null`/`undefined`/empty token gives no cursor; otherwise
base64-decode, UTF-8 decode, apply `Number`, and keep the value only when it
is finite and strictly positive. -/
def decodeCursor (c : Option String) : Option ℚ :=
  match c with
  | none => none
  | some s =>
    if s = "" then none
    else
      match jsNumber (String.mk (utf8Decode (b64DecodeStr s))) with
      | none => none
      | some n => if 0 < n then some n else none

/-! ## Storage model

Tables are lists of rows. `name_variants` and `name_meanings` share one row
shape (`name_id`, `language_id`, and a text column called `variant_name`
resp. `meaning` in SQL, called `value` here as in the repository's
TypeScript row types). -/

/-- A `(name_id, language_id, value)` row. -/
structure Row3 where
  name_id : Nat
  language_id : Nat
  value : String
deriving DecidableEq, Repr

/-- A `names` table row. -/
structure NameRec where
  id : Nat
  canonical_key : String
deriving DecidableEq, Repr

/-- One row of the materialized view `name_search_mv`; `meaning_by_lang`
models the jsonb object as a key/value list. -/
structure MVRow where
  name_id : Nat
  tamil : Option String
  english : List String
  french : List String
  meaning_by_lang : List (String × String)
  search_blob : String
deriving DecidableEq, Repr

/-- The `languages` table restricted to the three required locales
(the system fails closed at startup when one is missing). -/
structure LangMap where
  en : Nat
  ta : Nat
  fr : Nat
deriving DecidableEq, Repr

/-- The three locale codes. -/
inductive Lang
  | en
  | ta
  | fr
deriving DecidableEq, Repr

/-- Locale code to id, via the language directory. -/
def LangMap.idOf (m : LangMap) : Lang → Nat
  | .en => m.en
  | .ta => m.ta
  | .fr => m.fr

/-- The code string of a locale. -/
def Lang.code : Lang → String
  | .en => "en"
  | .ta => "ta"
  | .fr => "fr"

/-- Database state. -/
structure DB where
  langs : LangMap
  names : List NameRec
  nextNameId : Nat
  variants : List Row3
  meanings : List Row3
  mv : List MVRow
deriving DecidableEq, Repr

/-! ## ILIKE (Postgres pattern matching, case-insensitive)

Case folding is modelled on the ASCII fragment (the repository's data also
contains Tamil and accented text, but neither Postgres `ILIKE` nor JS
`toLowerCase` changes the characters the claims depend on). -/

/-- ASCII lower-casing of one character. -/
def asciiLower (c : Char) : Char :=
  match c with
  | 'A' => 'a' | 'B' => 'b' | 'C' => 'c' | 'D' => 'd' | 'E' => 'e' | 'F' => 'f' | 'G' => 'g'
  | 'H' => 'h' | 'I' => 'i' | 'J' => 'j' | 'K' => 'k' | 'L' => 'l' | 'M' => 'm' | 'N' => 'n'
  | 'O' => 'o' | 'P' => 'p' | 'Q' => 'q' | 'R' => 'r' | 'S' => 's' | 'T' => 't' | 'U' => 'u'
  | 'V' => 'v' | 'W' => 'w' | 'X' => 'x' | 'Y' => 'y' | 'Z' => 'z'
  | c => c

/-- JS `s.toLowerCase()` (ASCII fragment). -/
def strLower (s : String) : String := String.mk (s.toList.map asciiLower)

/-- SQL LIKE semantics: `%` matches any sequence, `_` any one character, a
backslash escapes the next pattern character (a trailing lone backslash is
taken literally). The `fuel` argument only makes the recursion structural;
each step shortens `s ++ p`, so `|s| + |p| + 1` fuel never runs out. -/
def likeMatchGo : Nat → List Char → List Char → Bool
  | 0, _, _ => false
  | fuel + 1, s, p =>
    match p with
    | [] => s.isEmpty
    | c :: p2 =>
      if c = '%' then
        likeMatchGo fuel s p2 || (!s.isEmpty && likeMatchGo fuel s.tail p)
      else
        match s with
        | [] => false
        | a :: s2 =>
          if c = '_' then likeMatchGo fuel s2 p2
          else if c = '\\' then
            match p2 with
            | [] => a = c && likeMatchGo fuel s2 p2
            | e :: p3 => a = e && likeMatchGo fuel s2 p3
          else a = c && likeMatchGo fuel s2 p2

/-- Does the LIKE pattern `p` match the whole text `s`? -/
def likeMatch (s p : List Char) : Bool := likeMatchGo (s.length + p.length + 1) s p

/-- Postgres `ILIKE`: LIKE after folding the case of text and pattern. -/
def ilike (s pat : String) : Bool :=
  likeMatch (s.toList.map asciiLower) (pat.toList.map asciiLower)

/-- `like` from src/repositories/names.repo.ts: wrap the search text in `%`.
The text is interpolated verbatim; `%`, `_` and `\` inside it keep their
pattern meaning. -/
def like (text : String) : String := "%" ++ text ++ "%"

/-! ## Sorting helpers (model of SQL ORDER BY / DISTINCT) -/

/-- Insert into a `le`-sorted list. -/
def insortLe (le : α → α → Bool) (x : α) : List α → List α
  | [] => [x]
  | y :: r => if le x y then x :: y :: r else y :: insortLe le x r

/-- Insertion sort by a boolean `le`. -/
def sortLe (le : α → α → Bool) (l : List α) : List α := l.foldr (insortLe le) []

/-- `ORDER BY` an id column ascending. -/
def sortNat (l : List Nat) : List Nat := sortLe (fun a b => a ≤ b) l

/-- Ascending sorted list of the distinct elements (`SELECT DISTINCT ...
ORDER BY`). -/
def sortedDedup (l : List Nat) : List Nat := (sortNat l).dedup

/-- `ORDER BY` for strings (text collation modelled by Lean's string order). -/
def sortStr (l : List String) : List String := sortLe (fun a b => a ≤ b) l

/-! ## Normalized read path (src/repositories/names.repo.ts) -/

/-- `$3::int IS NULL OR nv.name_id > $3` (the cursor arrives as a JS number). -/
def cursorOk (c : Option ℚ) (id : Nat) : Bool :=
  match c with
  | none => true
  | some q => q < (id : ℚ)

/-- The distinct, ascending matching name ids of `countMatchesNormalized` /
`deriveCursorIdNormalized` (no cursor condition). -/
def matchingIdsNormalized (db : DB) (languageId : Nat) (searchText : String) : List Nat :=
  sortedDedup ((db.variants.filter
    (fun v => v.language_id == languageId && ilike v.value (like searchText))).map Row3.name_id)

/-- `COUNT(DISTINCT nv.name_id)` over the matching variants. -/
def countMatchesNormalized (db : DB) (languageId : Nat) (searchText : String) : Nat :=
  (matchingIdsNormalized db languageId searchText).length

/-- Keyset page of ids: distinct matching ids beyond the cursor, ascending,
capped at `limit`. -/
def pageIdsNormalized (db : DB) (languageId : Nat) (searchText : String)
    (cursorId : Option ℚ) (limit : Nat) : List Nat :=
  (sortedDedup ((db.variants.filter (fun v =>
    v.language_id == languageId && ilike v.value (like searchText) &&
      cursorOk cursorId v.name_id)).map Row3.name_id)).take limit

/-- `LIMIT 1 OFFSET max(0, offset-1)` over the ordered matching ids
(`Nat` subtraction already truncates at zero like `Math.max(0, offset-1)`). -/
def deriveCursorIdNormalized (db : DB) (languageId : Nat) (searchText : String)
    (offset : Nat) : Option Nat :=
  (matchingIdsNormalized db languageId searchText)[offset - 1]?

/-! ## Denormalized (materialized view) read path -/

/-- MV rows whose search blob matches. -/
def mvMatches (db : DB) (searchTextLower : String) : List MVRow :=
  db.mv.filter (fun r => ilike r.search_blob (like searchTextLower))

/-- `COUNT(*)` over matching MV rows. -/
def countMatchesMV (db : DB) (searchTextLower : String) : Nat :=
  (mvMatches db searchTextLower).length

/-- Ascending matching MV ids (for cursor derivation). -/
def matchingIdsMV (db : DB) (searchTextLower : String) : List Nat :=
  sortNat ((mvMatches db searchTextLower).map MVRow.name_id)

/-- One row of a MV page: selected columns plus the resolved description. -/
structure MVPageRow where
  name_id : Nat
  tamil : Option String
  english : List String
  french : List String
  description : Option String
deriving DecidableEq, Repr

/-- jsonb `->> key`. -/
def jsonbLookup (obj : List (String × String)) (key : String) : Option String :=
  (obj.find? (fun kv => kv.1 == key)).map Prod.snd

/-- Column selection of the MV page query, resolving
`COALESCE(meaning_by_lang ->> lang, meaning_by_lang ->> 'en')`. -/
def mvPageRow (langCode : String) (r : MVRow) : MVPageRow :=
  { name_id := r.name_id
    tamil := r.tamil
    english := r.english
    french := r.french
    description :=
      (jsonbLookup r.meaning_by_lang langCode).orElse
        (fun _ => jsonbLookup r.meaning_by_lang "en") }

/-- MV page query: filter by blob and cursor, order by id, take `limit`. -/
def pageDataMV (db : DB) (langCode : String) (searchTextLower : String)
    (cursorId : Option ℚ) (limit : Nat) : List MVPageRow :=
  ((sortLe (fun a b => a.name_id ≤ b.name_id) (db.mv.filter (fun r =>
      ilike r.search_blob (like searchTextLower) && cursorOk cursorId r.name_id))).map
    (mvPageRow langCode)).take limit

/-- `LIMIT 1 OFFSET max(0, offset-1)` over the ordered matching MV ids. -/
def deriveCursorIdMV (db : DB) (searchTextLower : String) (offset : Nat) : Option Nat :=
  (matchingIdsMV db searchTextLower)[offset - 1]?

/-! ## Aggregation query (normalized path response rows) -/

/-- One output row of `fetchAggregatedByIds`. -/
structure AggRow where
  name_id : Nat
  tamil : Option String
  english : List (Option String)
  french : List (Option String)
  description : Option String
deriving DecidableEq, Repr

/-- Values of a name's variants in one locale. -/
def variantValues (db : DB) (id languageId : Nat) : List String :=
  (db.variants.filter (fun v => v.name_id == id && v.language_id == languageId)).map Row3.value

/-- Values of a name's meanings in one locale. -/
def meaningValues (db : DB) (id languageId : Nat) : List String :=
  (db.meanings.filter (fun m => m.name_id == id && m.language_id == languageId)).map Row3.value

/-- `(ARRAY_AGG(x ORDER BY x))[1]`: the least value, or SQL NULL when the
left join produced only NULL rows. -/
def aggFirst (l : List String) : Option String := (sortStr l).head?

/-- `ARRAY_AGG(DISTINCT x ORDER BY x)`: when the left join found no row the
aggregated array is `[NULL]`, otherwise the sorted distinct values. -/
def aggDistinct (l : List String) : List (Option String) :=
  match l with
  | [] => [none]
  | _ => ((sortStr l).dedup).map some

/-- The left-join rows contributed by a meanings table: one NULL row when
there is no match, else one row per matching meaning. -/
def optList (l : List String) : List (Option String) :=
  match l with
  | [] => [none]
  | _ => l.map some

/-- `fetchAggregatedByIds`: names with `id = ANY(ids)`, grouped by
`(n.id, nm_req.meaning, nm_en.meaning)`, ordered by id. Each group carries
the first Tamil variant, the distinct sorted English/French variants, and
`COALESCE(nm_req.meaning, nm_en.meaning)`. SQL leaves the relative order of
several groups of one id unspecified; this model enumerates the requested
locale's meanings in table order (the theorems below never depend on that
order). -/
def fetchAggregatedByIds (db : DB) (ids : List Nat)
    (taId enId frId reqLangId : Nat) : List AggRow :=
  (sortedDedup ((db.names.filter (fun n => ids.contains n.id)).map NameRec.id)).flatMap
    (fun id =>
      (optList (meaningValues db id reqLangId)).flatMap (fun mr =>
        (optList (meaningValues db id enId)).map (fun me =>
          { name_id := id
            tamil := aggFirst (variantValues db id taId)
            english := aggDistinct (variantValues db id enId)
            french := aggDistinct (variantValues db id frId)
            description := mr.orElse (fun _ => me) })))

/-! ## Search orchestrator (src/services/names.service.ts) -/

/-- The validated search request. -/
structure SearchInput where
  searchText : String
  lang : Lang
  pagePerRecord : Nat
  page : Nat
  cursor : Option String
deriving DecidableEq, Repr

/-- One response row (`NameResultDTO`). -/
structure NameResult where
  tamil : String
  english : List String
  french : List String
  description : String
deriving DecidableEq, Repr

/-- The search response. -/
structure SearchResponse where
  getNames : List NameResult
  totalCount : Nat
  nextCursor : Option String
deriving DecidableEq, Repr

/-- The id fetched by cursor derivation, as the JS number the service stores
in `cursorId` (exact: ids are small integers). -/
def castCursor (o : Option Nat) : Option ℚ :=
  match o with
  | some m => some ((m : ℚ))
  | none => none

/-- `(r.english || []).filter(Boolean)`: drop SQL NULLs and empty strings. -/
def filterBoolean (l : List (Option String)) : List String :=
  (l.filterMap id).filter (fun s => s ≠ "")

/-- Response shaping of one aggregated row (normalized path). -/
def shapeAgg (r : AggRow) : NameResult :=
  { tamil := r.tamil.getD ""
    english := filterBoolean r.english
    french := filterBoolean r.french
    description := r.description.getD "" }

/-- Response shaping of one MV page row. -/
def shapeMV (r : MVPageRow) : NameResult :=
  { tamil := r.tamil.getD ""
    english := r.english
    french := r.french
    description := r.description.getD "" }

/-- `searchNames`: decode the cursor; if absent and `page > 1`, derive one
from `offset = (page-1)*pagePerRecord` on the active read path; then count,
short-circuit on zero, fetch the page and emit the last row's id as the next
cursor. `useMV` is the `Env.USE_MV` deployment toggle. -/
def searchNames (db : DB) (useMV : Bool) (inp : SearchInput) : SearchResponse :=
  let limit := inp.pagePerRecord
  let cursor0 := decodeCursor inp.cursor
  let cursorId : Option ℚ :=
    if cursor0.isNone ∧ 1 < inp.page then
      castCursor
        (if useMV then deriveCursorIdMV db (strLower inp.searchText) ((inp.page - 1) * limit)
         else deriveCursorIdNormalized db (db.langs.idOf inp.lang) inp.searchText
           ((inp.page - 1) * limit))
    else cursor0
  if useMV then
    let totalCount := countMatchesMV db (strLower inp.searchText)
    if totalCount = 0 then ⟨[], totalCount, none⟩
    else
      let rows := pageDataMV db inp.lang.code (strLower inp.searchText) cursorId limit
      let nextCursor := match rows.getLast? with
        | some r => some (encodeCursor r.name_id)
        | none => none
      ⟨rows.map shapeMV, totalCount, nextCursor⟩
  else
    let langId := db.langs.idOf inp.lang
    let totalCount := countMatchesNormalized db langId inp.searchText
    if totalCount = 0 then ⟨[], totalCount, none⟩
    else
      let ids := pageIdsNormalized db langId inp.searchText cursorId limit
      if ids.isEmpty then ⟨[], totalCount, none⟩
      else
        let rows := fetchAggregatedByIds db ids db.langs.ta db.langs.en db.langs.fr langId
        let nextCursor := match ids.getLast? with
          | some i => some (encodeCursor i)
          | none => none
        ⟨rows.map shapeAgg, totalCount, nextCursor⟩

/-! ### LIKE patterns built from wildcard-free text are substring tests -/

/-- A character with no special LIKE meaning. -/
def plainChar (c : Char) : Bool := !(c = '%' || c = '_' || c = '\\')

/-- Reference searcher for claim C5, modelled from the spec's words: an
offset-paging caller computes `offset = (page-1)*pageSize` and receives the
window `drop offset, take pageSize` of the ascending matching set, shaped
exactly as `searchNames` shapes a page. -/
def searchNamesOffsetSpec (db : DB) (useMV : Bool) (inp : SearchInput) : SearchResponse :=
  let limit := inp.pagePerRecord
  let offset := (inp.page - 1) * limit
  if useMV then
    let totalCount := countMatchesMV db (strLower inp.searchText)
    if totalCount = 0 then ⟨[], totalCount, none⟩
    else
      let rows := (((sortLe (fun a b => a.name_id ≤ b.name_id)
        (mvMatches db (strLower inp.searchText))).map
          (mvPageRow inp.lang.code)).drop offset).take limit
      let nextCursor := match rows.getLast? with
        | some r => some (encodeCursor r.name_id)
        | none => none
      ⟨rows.map shapeMV, totalCount, nextCursor⟩
  else
    let langId := db.langs.idOf inp.lang
    let totalCount := countMatchesNormalized db langId inp.searchText
    if totalCount = 0 then ⟨[], totalCount, none⟩
    else
      let ids := ((matchingIdsNormalized db langId inp.searchText).drop offset).take limit
      if ids.isEmpty then ⟨[], totalCount, none⟩
      else
        let rows := fetchAggregatedByIds db ids db.langs.ta db.langs.en db.langs.fr langId
        let nextCursor := match ids.getLast? with
          | some i => some (encodeCursor i)
          | none => none
        ⟨rows.map shapeAgg, totalCount, nextCursor⟩

/-! ## Bulk publish pipeline

`names.service.ts bulkPublish` with the repository helpers of
`names.repo.ts` (`ensureName`, `upsertVariants`, `upsertMeanings`,
`withTransaction`).  The SQL statements are modelled as pure functions on
`DB`; `Date.now()` is an explicit `now : Nat` argument, and storage
failures are injected through a `failAt` oracle naming the row index and
the statement inside the row at which the driver throws. -/

/-- One `{ lang, value }` entry of a bulk-publish row. -/
structure LangValue where
  lang : Lang
  value : String
deriving DecidableEq, Repr

/-- One validated row of a bulk-publish request (`NameRow`): optional
canonical key, variants (the schema requires at least one) and meanings
(defaulted to the empty list). -/
structure NameRow where
  canonicalKey : Option String
  variants : List LangValue
  meanings : List LangValue
deriving DecidableEq, Repr

/-- A repository upsert item `{ language_id, value }`. -/
structure UpsertItem where
  language_id : Nat
  value : String
deriving DecidableEq, Repr

/-- The repository's `UpsertResult`. -/
structure UpsertResult where
  insertedCount : Nat
  duplicateCount : Nat
  duplicates : List UpsertItem
deriving DecidableEq, Repr

/-- Does the table hold a row equal to `r` on the unique key
`(name_id, language_id, value)`? -/
def rowMem (t : List Row3) (r : Row3) : Bool :=
  t.any (fun v => v.name_id == r.name_id && v.language_id == r.language_id && v.value == r.value)

/-- `INSERT ... SELECT ... ON CONFLICT (name_id, language_id, value) DO
NOTHING RETURNING ...` over the unnested item arrays: each item is appended
unless its key is already present (rows inserted earlier in the same
statement included), and the second component counts the inserted rows. -/
def insertTriples (nameId : Nat) (items : List UpsertItem) (t : List Row3) :
    List Row3 × Nat :=
  match items with
  | [] => (t, 0)
  | i :: is =>
    if rowMem t ⟨nameId, i.language_id, i.value⟩ then insertTriples nameId is t
    else
      let r := insertTriples nameId is (t ++ [⟨nameId, i.language_id, i.value⟩])
      (r.1, r.2 + 1)

/-- Common body of `upsertVariants` and `upsertMeanings` on one triple
table: early return on an empty batch, the `ON CONFLICT DO NOTHING`
insert, `duplicateCount = items.length - insertedCount`, and the `existed`
re-query — run AFTER the insert — whose rows select the reported
`duplicates` from the batch. -/
def upsertTriples (nameId : Nat) (items : List UpsertItem) (t : List Row3) :
    UpsertResult × List Row3 :=
  if items.isEmpty then (⟨0, 0, []⟩, t)
  else
    let ins := insertTriples nameId items t
    let existedRows := ins.1.filter (fun v =>
      v.name_id == nameId &&
        items.any (fun i => i.language_id == v.language_id && i.value == v.value))
    let duplicates := items.filter (fun i => existedRows.any
      (fun v => v.language_id == i.language_id && v.value == i.value))
    (⟨ins.2, items.length - ins.2, duplicates⟩, ins.1)

/-- `upsertVariants` acting on the `name_variants` table of the state. -/
def upsertVariants (nameId : Nat) (items : List UpsertItem) (db : DB) :
    UpsertResult × DB :=
  let r := upsertTriples nameId items db.variants
  (r.1, { db with variants := r.2 })

/-- `upsertMeanings` acting on the `name_meanings` table of the state. -/
def upsertMeanings (nameId : Nat) (items : List UpsertItem) (db : DB) :
    UpsertResult × DB :=
  let r := upsertTriples nameId items db.meanings
  (r.1, { db with meanings := r.2 })

/-- `ensureName`: `INSERT INTO names (canonical_key) VALUES ($1) ON
CONFLICT (canonical_key) DO UPDATE SET updated_at = now() RETURNING id` —
the id of the existing row with that unique key, else a fresh row.
`updated_at` is not modelled. -/
def ensureName (canonicalKey : String) (db : DB) : Nat × DB :=
  match db.names.find? (fun n => n.canonical_key == canonicalKey) with
  | some n => (n.id, db)
  | none => (db.nextNameId,
      { db with names := db.names ++ [⟨db.nextNameId, canonicalKey⟩],
                nextNameId := db.nextNameId + 1 })

/-- JS `String.prototype.trim`: strip leading and trailing whitespace. -/
def jsTrim (s : String) : String :=
  String.mk (((s.toList.dropWhile isJsWhitespace).reverse.dropWhile isJsWhitespace).reverse)

/-- The `\p{Letter}\p{Number}` character classes of `makeCanonicalKey`,
modelled on their ASCII fragment (where `normalize("NFKD")` is the
identity). -/
def isSlugAlnum (c : Char) : Bool := c.isAlpha || c.isDigit

/-- `replace(/^_+|_+$/g, "")`: strip leading and trailing underscores. -/
def underscoreTrim (l : List Char) : List Char :=
  ((l.dropWhile (· = '_')).reverse.dropWhile (· = '_')).reverse

/-- `replace(/_{2,}/g, "_")`: collapse runs of underscores to one. -/
def collapseUnderscores (l : List Char) : List Char :=
  (l.foldl (fun acc c =>
    if c = '_' ∧ acc.head? = some '_' then acc else c :: acc) []).reverse

/-- The slug `base` of `makeCanonicalKey`: pick the English variant if any,
else the first variant; lower-case it, turn non-alphanumeric runs into
single underscores, trim, and keep at most 100 characters.  (The source
replaces each maximal non-alphanumeric run by one `_` and then collapses
`_{2,}`; replacing per character before the collapse yields the same
string.) -/
def slugBase (row : NameRow) : String :=
  let pick := (row.variants.find? (fun v => v.lang == Lang.en)).getD
    (row.variants.headD ⟨Lang.en, ""⟩)
  String.mk ((collapseUnderscores (underscoreTrim
    ((pick.value.toList.map asciiLower).map
      (fun c => if isSlugAlnum c then c else '_')))).take 100)

/-- `makeCanonicalKey`: the slug base, or `name_${Date.now()}` when the
base is empty. -/
def makeCanonicalKey (row : NameRow) (now : Nat) : String :=
  let base := slugBase row
  if base = "" then "name_" ++ String.mk (jsDigits now) else base

/-- `(r.canonicalKey && r.canonicalKey.trim()) || makeCanonicalKey(r)`:
the trimmed provided key when present and non-blank, else the derived
key. -/
def canonicalKeyOf (row : NameRow) (now : Nat) : String :=
  match row.canonicalKey with
  | some k => if jsTrim k = "" then makeCanonicalKey row now else jsTrim k
  | none => makeCanonicalKey row now

/-- Translate a duplicate's `language_id` back to its code, as the service
does with `Object.keys(langIdMap).find(...)`; `none` models the
`undefined` hidden by the non-null assertion when no resolved code has
that id. -/
def codeOfId (langs : LangMap) (i : Nat) : Option Lang :=
  if i = langs.en then some Lang.en
  else if i = langs.ta then some Lang.ta
  else if i = langs.fr then some Lang.fr
  else none

/-- Map a row's `{lang, value}` entries to repository items through the
resolved language directory (`getLanguageIds` returns the stored id of
each referenced code; restricting the map to referenced codes changes no
id). -/
def rowItems (langs : LangMap) (vs : List LangValue) : List UpsertItem :=
  vs.map (fun v => ⟨langs.idOf v.lang, v.value⟩)

/-- The record pushed onto `aggregate.rows` for one processed row,
together with the two duplicate counts the same iteration adds to the
totals (the response's per-row record itself carries only the lists). -/
structure RowOutcome where
  index : Nat
  canonicalKey : String
  nameId : Nat
  variantsInserted : Nat
  variantsDupCount : Nat
  variantsDuplicates : List (Option Lang × String)
  meaningsInserted : Nat
  meaningsDupCount : Nat
  meaningsDuplicates : List (Option Lang × String)
deriving DecidableEq, Repr

/-- `BulkPublishResult.totals`. -/
structure BulkTotals where
  rows : Nat
  namesEnsured : Nat
  variantsInserted : Nat
  variantsDuplicates : Nat
  meaningsInserted : Nat
  meaningsDuplicates : Nat
deriving DecidableEq, Repr

/-- `BulkPublishResult`. -/
structure BulkPublishResult where
  totals : BulkTotals
  rows : List RowOutcome
  dryRun : Bool
  source : Option String
deriving DecidableEq, Repr

/-- Which statement of a row the injected storage failure hits. -/
inductive FailPoint
  | atEnsure
  | atVariants
  | atMeanings
deriving DecidableEq, Repr

/-- A storage error thrown while processing the named row. -/
inductive StorageErr
  | storage (rowIndex : Nat)
deriving DecidableEq, Repr

/-- The `for` loop of `bulkPublish` from row index `i`: per row, derive the
canonical key, `ensureName`, upsert variants then meanings, and record the
`RowOutcome`; an injected failure throws out of the loop. -/
def processRows (langs : LangMap) (now : Nat) (failAt : Option (Nat × FailPoint)) :
    Nat → List NameRow → DB → Except StorageErr (List RowOutcome × DB)
  | _, [], db => .ok ([], db)
  | i, r :: rest, db =>
    if failAt = some (i, FailPoint.atEnsure) then .error (.storage i)
    else
      let key := canonicalKeyOf r now
      let ens := ensureName key db
      if failAt = some (i, FailPoint.atVariants) then .error (.storage i)
      else
        let vr := upsertVariants ens.1 (rowItems langs r.variants) ens.2
        if failAt = some (i, FailPoint.atMeanings) then .error (.storage i)
        else
          let mr := upsertMeanings ens.1 (rowItems langs r.meanings) vr.2
          match processRows langs now failAt (i + 1) rest mr.2 with
          | .error e => .error e
          | .ok (outs, dbEnd) => .ok (
              { index := i
                canonicalKey := key
                nameId := ens.1
                variantsInserted := vr.1.insertedCount
                variantsDupCount := vr.1.duplicateCount
                variantsDuplicates := vr.1.duplicates.map
                  (fun d => (codeOfId langs d.language_id, d.value))
                meaningsInserted := mr.1.insertedCount
                meaningsDupCount := mr.1.duplicateCount
                meaningsDuplicates := mr.1.duplicates.map
                  (fun d => (codeOfId langs d.language_id, d.value)) } :: outs, dbEnd)

/-- The totals the loop accumulates: one `namesEnsured` per processed row
and the four upsert counters summed over the rows. -/
def totalsOf (nrows : Nat) (outs : List RowOutcome) : BulkTotals :=
  { rows := nrows
    namesEnsured := outs.length
    variantsInserted := (outs.map RowOutcome.variantsInserted).sum
    variantsDuplicates := (outs.map RowOutcome.variantsDupCount).sum
    meaningsInserted := (outs.map RowOutcome.meaningsInserted).sum
    meaningsDuplicates := (outs.map RowOutcome.meaningsDupCount).sum }

/-- `bulkPublish`, composing `withTransaction` (`BEGIN`, the loop,
`COMMIT`; `ROLLBACK` and rethrow on any throw) with the `DryRunRollback`
catch: a storage error surfaces with the state rolled back; on success the
aggregate is returned — committed when `dryRun` is false, rolled back (the
`DryRunRollback` throw, converted back to the computed result) when it is
true. -/
def bulkPublish (db : DB) (rows : List NameRow) (dryRun : Bool)
    (source : Option String) (now : Nat) (failAt : Option (Nat × FailPoint)) :
    Except StorageErr BulkPublishResult × DB :=
  match processRows db.langs now failAt 0 rows db with
  | .error e => (.error e, db)
  | .ok (outs, dbEnd) =>
    let aggregate : BulkPublishResult :=
      { totals := totalsOf rows.length outs, rows := outs
        dryRun := dryRun, source := source }
    if dryRun then (.ok aggregate, db) else (.ok aggregate, dbEnd)

/-- The `kind` tag of a flattened duplicate detail. -/
inductive DupKind
  | variant
  | meaning
deriving DecidableEq, Repr

/-- One entry of the controller's flattened `duplicateDetails`. -/
structure DuplicateDetail where
  index : Nat
  canonicalKey : String
  nameId : Nat
  kind : DupKind
  language : Option Lang
  value : String
deriving DecidableEq, Repr

/-- The controller's response summary for `POST /names/bulk`. -/
structure BulkResponse where
  inserted : Nat
  duplicates : Nat
  duplicateDetails : List DuplicateDetail
deriving DecidableEq, Repr

/-- The response shaping in `names.controller.ts`: summed insert and
duplicate counters, and the per-row duplicate lists flattened. -/
def bulkPublishResponse (r : BulkPublishResult) : BulkResponse :=
  { inserted := r.totals.variantsInserted + r.totals.meaningsInserted
    duplicates := r.totals.variantsDuplicates + r.totals.meaningsDuplicates
    duplicateDetails := r.rows.flatMap (fun row =>
      row.variantsDuplicates.map (fun d =>
        ⟨row.index, row.canonicalKey, row.nameId, DupKind.variant, d.1, d.2⟩) ++
      row.meaningsDuplicates.map (fun d =>
        ⟨row.index, row.canonicalKey, row.nameId, DupKind.meaning, d.1, d.2⟩)) }

/-- A row's canonical key does not depend on the clock: either a non-blank
key is provided, or the slug base is non-empty so the `name_${Date.now()}`
fallback is not taken. -/
def stableKey (r : NameRow) : Bool :=
  (match r.canonicalKey with
   | some k => !(jsTrim k == "")
   | none => false) || !(slugBase r == "")

/-- The loop of `bulkPublish` when no statement throws (the `failAt`
oracle is empty): same per-row steps as `processRows`, with no error
case. -/
def runRows (langs : LangMap) (now : Nat) :
    Nat → List NameRow → DB → List RowOutcome × DB
  | _, [], db => ([], db)
  | i, r :: rest, db =>
    let key := canonicalKeyOf r now
    let ens := ensureName key db
    let vr := upsertVariants ens.1 (rowItems langs r.variants) ens.2
    let mr := upsertMeanings ens.1 (rowItems langs r.meanings) vr.2
    let rec2 := runRows langs now (i + 1) rest mr.2
    ({ index := i
       canonicalKey := key
       nameId := ens.1
       variantsInserted := vr.1.insertedCount
       variantsDupCount := vr.1.duplicateCount
       variantsDuplicates := vr.1.duplicates.map
         (fun d => (codeOfId langs d.language_id, d.value))
       meaningsInserted := mr.1.insertedCount
       meaningsDupCount := mr.1.duplicateCount
       meaningsDuplicates := mr.1.duplicates.map
         (fun d => (codeOfId langs d.language_id, d.value)) } :: rec2.1, rec2.2)

/-- One state extends another when the language directory is unchanged and
each of the three mutated tables has only grown at its end (every write of
the pipeline appends). -/
def dbExtends (db dbE : DB) : Prop :=
  dbE.langs = db.langs ∧
  (∃ e, dbE.names = db.names ++ e) ∧
  (∃ e, dbE.variants = db.variants ++ e) ∧
  (∃ e, dbE.meanings = db.meanings ++ e)

/-- A bulk-publish row is already fully stored in a state: its canonical
key resolves to a stored name whose variant and meaning triples are all
present. -/
def rowReady (langs : LangMap) (now : Nat) (db : DB) (r : NameRow) : Prop :=
  ∃ n : NameRec,
    db.names.find? (fun m => m.canonical_key == canonicalKeyOf r now) = some n ∧
    (∀ i ∈ rowItems langs r.variants,
      rowMem db.variants ⟨n.id, i.language_id, i.value⟩ = true) ∧
    (∀ i ∈ rowItems langs r.meanings,
      rowMem db.meanings ⟨n.id, i.language_id, i.value⟩ = true)

/-! ### Codec lemmas -/

theorem b64Index_b64Char : ∀ k, k < 64 → b64Index (b64Char k) = some k := by decide

theorem b64Index_pad : b64Index '=' = none := by decide

theorem b64_roundtrip (l : List Nat) (h : ∀ b ∈ l, b < 256) :
    b64DecodeSextets ((b64EncodeBytes l).filterMap b64Index) = l := by
  induction l using b64EncodeBytes.induct with
  | case1 => simp [b64EncodeBytes, b64DecodeSextets]
  | case2 a =>
    have ha : a < 256 := h a (by simp)
    simp only [b64EncodeBytes, List.filterMap_cons]
    rw [b64Index_b64Char _ (by omega), b64Index_b64Char _ (by omega), b64Index_pad]
    simp only [b64DecodeSextets]
    congr 1
    omega
  | case3 a b =>
    have ha : a < 256 := h a (by simp)
    have hb : b < 256 := h b (by simp)
    simp only [b64EncodeBytes, List.filterMap_cons]
    rw [b64Index_b64Char _ (by omega), b64Index_b64Char _ (by omega),
      b64Index_b64Char _ (by omega), b64Index_pad]
    simp only [b64DecodeSextets]
    congr 1
    · omega
    · congr 1; omega
  | case4 a b c rest ih =>
    have ha : a < 256 := h a (by simp)
    have hb : b < 256 := h b (by simp)
    have hc : c < 256 := h c (by simp)
    have hrest : ∀ x ∈ rest, x < 256 := fun x hx => h x (by simp [hx])
    simp only [b64EncodeBytes, List.filterMap_cons]
    rw [b64Index_b64Char _ (by omega), b64Index_b64Char _ (by omega),
      b64Index_b64Char _ (by omega), b64Index_b64Char _ (by omega)]
    simp only [b64DecodeSextets]
    rw [ih hrest]
    congr 1
    · omega
    congr 1
    · omega
    congr 1
    omega

theorem utf8Encode_ascii_lt (l : List Char) (h : ∀ c ∈ l, c.toNat < 128) :
    ∀ b ∈ utf8Encode l, b < 256 := by
  induction l with
  | nil => simp [utf8Encode]
  | cons c r ih =>
    have hc : c.toNat < 128 := h c (by simp)
    intro b hb
    simp only [utf8Encode, utf8EncodeChar, if_pos (by omega : c.toNat < 0x80),
      List.mem_append] at hb
    rcases hb with hb | hb
    · simp at hb; omega
    · exact ih (fun x hx => h x (by simp [hx])) b hb

theorem utf8DecodeGo_ascii (l : List Char) (h : ∀ c ∈ l, c.toNat < 128) :
    ∀ fuel, (utf8Encode l).length ≤ fuel → utf8DecodeGo fuel (utf8Encode l) = l := by
  induction l with
  | nil => intro fuel _; cases fuel <;> simp [utf8Encode, utf8DecodeGo]
  | cons c r ih =>
    intro fuel hf
    have hc : c.toNat < 128 := h c (by simp)
    have henc : utf8Encode (c :: r) = c.toNat :: utf8Encode r := by
      simp [utf8Encode, utf8EncodeChar, if_pos (show c.toNat < 0x80 by omega)]
    rw [henc] at hf ⊢
    cases fuel with
    | zero => simp at hf
    | succ f =>
      rw [utf8DecodeGo.eq_def]
      simp only [if_pos (show c.toNat < 0x80 by omega)]
      rw [Char.ofNat_toNat, ih (fun x hx => h x (by simp [hx])) f (by simpa using hf)]

theorem utf8_roundtrip_ascii (l : List Char) (h : ∀ c ∈ l, c.toNat < 128) :
    utf8Decode (utf8Encode l) = l :=
  utf8DecodeGo_ascii l h _ le_rfl

theorem mem_natDigitsRev (n : Nat) : ∀ c ∈ natDigitsRev n, ∃ d, d < 10 ∧ c = digitChar d := by
  induction n using natDigitsRev.induct with
  | case1 n hlt =>
    rw [natDigitsRev, dif_pos hlt]
    intro c hc
    simp at hc
    exact ⟨n, hlt, hc⟩
  | case2 n hlt ih =>
    rw [natDigitsRev, dif_neg hlt]
    intro c hc
    rcases List.mem_cons.mp hc with hc | hc
    · exact ⟨n % 10, by omega, hc⟩
    · exact ih c hc

theorem natDigitsRev_ne_nil (n : Nat) : natDigitsRev n ≠ [] := by
  rw [natDigitsRev]
  split <;> simp

theorem natOfDigits_append_digit (l : List Char) (c : Char) :
    natOfDigits (l ++ [c]) = 10 * natOfDigits l + digitVal c := by
  simp [natOfDigits, List.foldl_append]

theorem natOfDigits_jsDigits (n : Nat) : natOfDigits (jsDigits n) = n := by
  unfold jsDigits
  induction n using natDigitsRev.induct with
  | case1 n hlt =>
    rw [natDigitsRev, dif_pos hlt]
    interval_cases n <;> simp [natOfDigits, digitVal, digitChar]
  | case2 n hlt ih =>
    rw [natDigitsRev, dif_neg hlt]
    simp only [List.reverse_cons]
    rw [natOfDigits_append_digit, ih]
    have h10 : digitVal (digitChar (n % 10)) = n % 10 := by
      have : n % 10 < 10 := Nat.mod_lt _ (by omega)
      interval_cases h : (n % 10) <;> simp [digitChar, digitVal]
    omega

/-- Every character of `jsDigits n` is an ASCII decimal digit. -/
theorem jsDigits_digit (n : Nat) : ∀ c ∈ jsDigits n, isDigitChar c = true := by
  intro c hc
  rw [jsDigits, List.mem_reverse] at hc
  obtain ⟨d, hd, rfl⟩ := mem_natDigitsRev n c hc
  interval_cases d <;> decide

theorem jsDigits_ne_nil (n : Nat) : jsDigits n ≠ [] := by
  simp [jsDigits, natDigitsRev_ne_nil]

theorem jsDigits_ascii (n : Nat) : ∀ c ∈ jsDigits n, c.toNat < 128 := by
  intro c hc
  rw [jsDigits, List.mem_reverse] at hc
  obtain ⟨d, hd, rfl⟩ := mem_natDigitsRev n c hc
  interval_cases d <;> decide

theorem dropWhile_eq_self_of {p : Char → Bool} {l : List Char}
    (h : ∀ c ∈ l, p c = false) : l.dropWhile p = l := by
  cases l with
  | nil => rfl
  | cons c r => simp [List.dropWhile_cons, h c (by simp)]

theorem takeWhile_eq_self_of {p : Char → Bool} {l : List Char}
    (h : ∀ c ∈ l, p c = true) : l.takeWhile p = l := by
  induction l with
  | nil => rfl
  | cons c r ih =>
    simp [List.takeWhile_cons, h c (by simp), ih (fun x hx => h x (by simp [hx]))]

theorem dropWhile_eq_nil_of {p : Char → Bool} {l : List Char}
    (h : ∀ c ∈ l, p c = true) : l.dropWhile p = [] := by
  induction l with
  | nil => rfl
  | cons c r ih =>
    simp [List.dropWhile_cons, h c (by simp), ih (fun x hx => h x (by simp [hx]))]

/-- A digit character is not a JS whitespace character. -/
theorem digit_not_ws {c : Char} (h : isDigitChar c = true) : isJsWhitespace c = false := by
  simp only [isDigitChar, Bool.and_eq_true, decide_eq_true_eq] at h
  simp only [isJsWhitespace]
  have h0 : ('0' : Char).toNat = 48 := by decide
  have h9 : ('9' : Char).toNat = 57 := by decide
  have hc : 48 ≤ c.toNat ∧ c.toNat ≤ 57 := ⟨h.1, h.2⟩
  have : ∀ a : Char, a = c ↔ c = a := fun a => eq_comm
  simp only [Bool.or_eq_false_iff, decide_eq_false_iff_not]
  refine ⟨⟨⟨⟨⟨⟨⟨⟨⟨?_, ?_⟩, ?_⟩, ?_⟩, ?_⟩, ?_⟩, ?_⟩, ?_⟩, ?_⟩, ?_⟩ <;>
    (intro hq; rw [hq] at hc; revert hc; decide)

/-- `parseDecimal` of a pure digit string is its decimal value. -/
theorem parseDecimal_digits (l : List Char) (hne : l ≠ [])
    (hdig : ∀ c ∈ l, isDigitChar c = true) :
    parseDecimal l = some ((natOfDigits l : ℚ)) := by
  rw [parseDecimal]
  simp only [takeWhile_eq_self_of hdig, dropWhile_eq_nil_of hdig]
  rw [if_neg (by simpa using hne)]
  norm_num [show natOfDigits ([] : List Char) = 0 from rfl]

/-- `Number` of a pure digit string is its decimal value. -/
theorem jsNumber_digits (l : List Char) (hne : l ≠ [])
    (hdig : ∀ c ∈ l, isDigitChar c = true) :
    jsNumber (String.mk l) = some ((natOfDigits l : ℚ)) := by
  have hnws : ∀ c ∈ l, isJsWhitespace c = false :=
    fun c hc => digit_not_ws (hdig c hc)
  have htrim : ((l.dropWhile isJsWhitespace).reverse.dropWhile isJsWhitespace).reverse = l := by
    rw [dropWhile_eq_self_of hnws, dropWhile_eq_self_of (by simpa using hnws),
      List.reverse_reverse]
  rw [jsNumber]
  simp only [String.toList, htrim]
  have hnotMem : ∀ c : Char, isDigitChar c = false → c ∉ l := by
    intro c hc hmem
    rw [hdig c hmem] at hc
    simp at hc
  have hx : ∀ y : Char, l.take 2 = ['0', y] → y ∈ l := by
    intro y hy
    have : y ∈ l.take 2 := by rw [hy]; simp
    exact List.mem_of_mem_take this
  rw [if_neg (by simpa [List.isEmpty_iff] using hne)]
  rw [if_neg ?hplus]
  case hplus =>
    intro hq
    exact hnotMem '+' (by decide) (List.mem_of_mem_head? (by rw [hq]; rfl))
  rw [if_neg ?hminus]
  case hminus =>
    intro hq
    exact hnotMem '-' (by decide) (List.mem_of_mem_head? (by rw [hq]; rfl))
  rw [if_neg ?hhex]
  case hhex =>
    intro hq
    rcases hq with hq | hq
    · exact hnotMem 'x' (by decide) (hx _ hq)
    · exact hnotMem 'X' (by decide) (hx _ hq)
  rw [if_neg ?hoct]
  case hoct =>
    intro hq
    rcases hq with hq | hq
    · exact hnotMem 'o' (by decide) (hx _ hq)
    · exact hnotMem 'O' (by decide) (hx _ hq)
  rw [if_neg ?hbin]
  case hbin =>
    intro hq
    rcases hq with hq | hq
    · exact hnotMem 'b' (by decide) (hx _ hq)
    · exact hnotMem 'B' (by decide) (hx _ hq)
  rw [if_neg ?hinf]
  case hinf =>
    intro hq
    exact hnotMem 'I' (by decide) (by rw [hq]; decide)
  exact parseDecimal_digits l hne hdig

/-- `Number` of the decimal representation of `n` is exactly `n`. -/
theorem jsNumber_jsDigits (n : Nat) : jsNumber (String.mk (jsDigits n)) = some (n : ℚ) := by
  rw [jsNumber_digits (jsDigits n) (jsDigits_ne_nil n) (jsDigits_digit n),
    natOfDigits_jsDigits]

/-- Evaluation helper: a token whose decoded text is a pure digit string
decodes to its (positive) decimal value. -/
theorem decodeCursor_digit_token (s : String) (l : List Char) (hs : s ≠ "")
    (h : utf8Decode (b64DecodeStr s) = l) (hne : l ≠ [])
    (hdig : ∀ c ∈ l, isDigitChar c = true) (hpos : 0 < natOfDigits l) :
    decodeCursor (some s) = some ((natOfDigits l : ℚ)) := by
  show (if s = "" then none
    else match jsNumber (String.mk (utf8Decode (b64DecodeStr s))) with
      | none => none
      | some n => if 0 < n then some n else none) = some ((natOfDigits l : ℚ))
  rw [if_neg hs, h, jsNumber_digits l hne hdig]
  show (if 0 < ((natOfDigits l : ℚ)) then some ((natOfDigits l : ℚ)) else none) = _
  rw [if_pos (by exact_mod_cast hpos)]

/-- The core codec round trip: decoding an encoded positive id gives it back. -/
theorem decode_encode (n : Nat) (h : 1 ≤ n) :
    decodeCursor (some (encodeCursor n)) = some (n : ℚ) := by
  have hascii := jsDigits_ascii n
  have hbytes : ∀ b ∈ utf8Encode (jsDigits n), b < 256 := utf8Encode_ascii_lt _ hascii
  have hne : utf8Encode (jsDigits n) ≠ [] := by
    rcases hd : jsDigits n with _ | ⟨c, r⟩
    · exact absurd hd (jsDigits_ne_nil n)
    · have hc : c.toNat < 128 := hascii c (by rw [hd]; simp)
      simp [utf8Encode, utf8EncodeChar, if_pos (by omega : c.toNat < 0x80)]
  have henc_ne : b64EncodeBytes (utf8Encode (jsDigits n)) ≠ [] := by
    rcases hb : utf8Encode (jsDigits n) with _ | ⟨a, _ | ⟨b', _ | _⟩⟩ <;>
      simp_all [b64EncodeBytes]
  rw [decodeCursor, encodeCursor, b64EncodeStr]
  rw [if_neg (by intro hq; exact henc_ne (congrArg String.data hq))]
  have hlist : (String.mk (b64EncodeBytes (utf8Encode (jsDigits n)))).toList
      = b64EncodeBytes (utf8Encode (jsDigits n)) := rfl
  rw [b64DecodeStr, hlist, b64_roundtrip _ hbytes, utf8_roundtrip_ascii _ hascii,
    jsNumber_jsDigits]
  show (if 0 < (n : ℚ) then some ((n : ℚ)) else none) = some (n : ℚ)
  rw [if_pos (by exact_mod_cast h)]

/-! ### Claims about the cursor codec -/

/-- Claim C8: for every positive integer `n`,
`decodeCursor (encodeCursor n) = n`. -/
theorem claim_cursor_roundtrip (n : Nat) (h : 1 ≤ n) :
    decodeCursor (some (encodeCursor n)) = some (n : ℚ) := decode_encode n h

/-- Witness for claim C8 at `n = 5`. -/
theorem claim_cursor_roundtrip_witness :
    1 ≤ 5 ∧ decodeCursor (some (encodeCursor 5)) = some (5 : ℚ) :=
  ⟨by norm_num, claim_cursor_roundtrip 5 (by norm_num)⟩

/-- Counterexample to claim C9 as stated: the token `"MDA3"` (base64 of the
text `"007"`) is not the encoding of any positive integer id, yet
`decodeCursor` returns `7` for it rather than "no cursor". -/
theorem claim_decode_reject_counterexample :
    decodeCursor (some "MDA3") = some 7 ∧ ∀ n : Nat, 1 ≤ n → encodeCursor n ≠ "MDA3" := by
  have h7 : decodeCursor (some "MDA3") = some (7 : ℚ) := by
    have h := decodeCursor_digit_token "MDA3" ['0', '0', '7'] (by decide) (by decide)
      (by decide) (by decide) (by decide)
    rw [show natOfDigits ['0', '0', '7'] = 7 from by decide] at h
    simpa using h
  refine ⟨h7, ?_⟩
  intro n hn hq
  have h := decode_encode n hn
  rw [hq, h7] at h
  have hn7 : n = 7 := by exact_mod_cast (Option.some.inj h).symm
  subst hn7
  simp only [encodeCursor, jsDigits] at hq
  rw [natDigitsRev] at hq
  exact absurd hq (by decide)

/-- Claim C9 (amended): `decodeCursor` never fails; it returns "no cursor"
(`none`) for an absent or empty token and for any token whose decoded text
is non-finite or non-positive under JS `Number`, and every non-`none` result
is strictly positive. (Tokens outside the image of `encodeCursor` may still
decode to a positive value, e.g. base64 of `"007"` gives `7`.) -/
theorem claim_decode_degrade (s : String) :
    decodeCursor none = none ∧
    decodeCursor (some "") = none ∧
    (decodeCursor (some s) = none ∨ ∃ q : ℚ, 0 < q ∧ decodeCursor (some s) = some q) ∧
    (∀ q : ℚ, jsNumber (String.mk (utf8Decode (b64DecodeStr s))) = none ∨
        (jsNumber (String.mk (utf8Decode (b64DecodeStr s))) = some q ∧ q ≤ 0) →
      decodeCursor (some s) = none) := by
  refine ⟨rfl, rfl, ?_, ?_⟩
  · by_cases hs : s = ""
    · subst hs; exact Or.inl rfl
    rcases hj : jsNumber (String.mk (utf8Decode (b64DecodeStr s))) with _ | q
    · exact Or.inl (by simp [decodeCursor, hs, hj])
    by_cases hq : 0 < q
    · exact Or.inr ⟨q, hq, by simp [decodeCursor, hs, hj, hq]⟩
    · exact Or.inl (by simp [decodeCursor, hs, hj, hq])
  · intro q hq
    by_cases hs : s = ""
    · subst hs; rfl
    rcases hq with hq | ⟨hq, hle⟩
    · simp [decodeCursor, hs, hq]
    · have hnotlt : ¬(0 < q) := not_lt.mpr hle
      simp [decodeCursor, hs, hq, hnotlt]

/-- Witness for the amended claim C9: the token encoding `"0"` (a non-positive
decoding) degrades to "no cursor". -/
theorem claim_decode_degrade_witness :
    decodeCursor (some "MA==") = none := by
  have hj : jsNumber (String.mk (utf8Decode (b64DecodeStr "MA=="))) = some 0 := by
    rw [show utf8Decode (b64DecodeStr "MA==") = ['0'] from by decide,
      jsNumber_digits ['0'] (by decide) (by decide)]
    norm_num [show natOfDigits ['0'] = 0 from by decide]
  exact (claim_decode_degrade "MA==").2.2.2 0 (Or.inr ⟨hj, le_refl 0⟩)

/-! ### Sorting lemmas -/

theorem insortLe_perm {α} (le : α → α → Bool) (x : α) (l : List α) :
    List.Perm (insortLe le x l) (x :: l) := by
  induction l with
  | nil => rfl
  | cons y r ih =>
    rw [insortLe]
    split
    · rfl
    · exact (ih.cons y).trans (List.Perm.swap x y r)

theorem sortLe_perm {α} (le : α → α → Bool) (l : List α) :
    List.Perm (sortLe le l) l := by
  induction l with
  | nil => rfl
  | cons c l ih => exact (insortLe_perm le c (sortLe le l)).trans (ih.cons c)

theorem insortLe_pairwise {α} {R : α → α → Prop} (le : α → α → Bool)
    (h1 : ∀ a b, le a b = true → R a b) (h2 : ∀ a b, le a b = false → R b a)
    (htrans : ∀ a b c, R a b → R b c → R a c)
    (x : α) (l : List α) (hl : l.Pairwise R) : (insortLe le x l).Pairwise R := by
  induction l with
  | nil => simp [insortLe]
  | cons y r ih =>
    rw [insortLe]
    rcases List.pairwise_cons.mp hl with ⟨hyr, hr⟩
    split
    · rename_i hxy
      refine List.pairwise_cons.mpr ⟨?_, hl⟩
      intro z hz
      rcases List.mem_cons.mp hz with rfl | hz
      · exact h1 _ _ hxy
      · exact htrans _ _ _ (h1 _ _ hxy) (hyr z hz)
    · rename_i hxy
      refine List.pairwise_cons.mpr ⟨?_, ih hr⟩
      intro z hz
      rcases List.mem_cons.mp ((insortLe_perm le x r).mem_iff.mp hz) with rfl | hz
      · exact h2 _ _ (Bool.not_eq_true _ ▸ hxy)
      · exact hyr z hz

theorem sortLe_pairwise {α} {R : α → α → Prop} (le : α → α → Bool)
    (h1 : ∀ a b, le a b = true → R a b) (h2 : ∀ a b, le a b = false → R b a)
    (htrans : ∀ a b c, R a b → R b c → R a c)
    (l : List α) : (sortLe le l).Pairwise R := by
  induction l with
  | nil => exact List.Pairwise.nil
  | cons c l ih => exact insortLe_pairwise le h1 h2 htrans c (sortLe le l) ih

theorem sortNat_sorted (l : List Nat) : (sortNat l).Pairwise (· ≤ ·) := by
  unfold sortNat
  exact sortLe_pairwise (R := fun a b : Nat => a ≤ b) (fun a b => decide (a ≤ b))
    (fun _ _ h => of_decide_eq_true h)
    (fun _ _ h => le_of_not_le (of_decide_eq_false h))
    (fun _ _ _ hab hbc => Nat.le_trans hab hbc) l

theorem sortedDedup_sorted (l : List Nat) : (sortedDedup l).Pairwise (· < ·) := by
  have h1 : (sortedDedup l).Pairwise (· ≤ ·) :=
    (sortNat_sorted l).sublist (List.dedup_sublist _)
  have h2 : (sortedDedup l).Pairwise (· ≠ ·) := List.nodup_dedup _
  exact (h1.and h2).imp (fun h => lt_of_le_of_ne h.1 h.2)

theorem mem_sortedDedup (x : Nat) (l : List Nat) : x ∈ sortedDedup l ↔ x ∈ l := by
  rw [sortedDedup, List.mem_dedup, sortNat]
  exact (sortLe_perm _ l).mem_iff

theorem sortedDedup_nodup (l : List Nat) : (sortedDedup l).Nodup := List.nodup_dedup _

/-- Two strictly ascending lists with the same members are equal. -/
theorem strictSorted_ext {l₁ l₂ : List Nat} (h1 : l₁.Pairwise (· < ·))
    (h2 : l₂.Pairwise (· < ·)) (h : ∀ x, x ∈ l₁ ↔ x ∈ l₂) : l₁ = l₂ := by
  refine List.eq_of_perm_of_sorted ?_ h1 h2
  refine (List.perm_ext_iff_of_nodup ?_ ?_).mpr h
  · exact h1.imp (fun hab => Nat.ne_of_lt hab)
  · exact h2.imp (fun hab => Nat.ne_of_lt hab)

/-! ### LIKE / ILIKE lemmas -/

theorem likeMatchGo_congr (f : Nat) :
    ∀ (g : Nat) (s p : List Char), s.length + p.length < f → s.length + p.length < g →
      likeMatchGo f s p = likeMatchGo g s p := by
  induction f with
  | zero => intro g s p h _; omega
  | succ f ih =>
    intro g s p h h'
    cases g with
    | zero => omega
    | succ g =>
      cases p with
      | nil => simp [likeMatchGo]
      | cons c p2 =>
        simp only [List.length_cons] at h h'
        by_cases hc : c = '%'
        · subst hc
          cases s with
          | nil =>
            simp only [List.length_nil] at h h'
            have e1 := ih g [] p2 (by simp only [List.length_nil]; omega)
              (by simp only [List.length_nil]; omega)
            simp [likeMatchGo, e1]
          | cons x s2 =>
            simp only [List.length_cons] at h h'
            have e1 := ih g (x :: s2) p2 (by simp only [List.length_cons]; omega)
              (by simp only [List.length_cons]; omega)
            have e2 := ih g s2 ('%' :: p2) (by simp only [List.length_cons]; omega)
              (by simp only [List.length_cons]; omega)
            simp [likeMatchGo, e1, e2]
        · cases s with
          | nil => simp [likeMatchGo, hc]
          | cons a s2 =>
            simp only [List.length_cons] at h h'
            by_cases hu : c = '_'
            · subst hu
              have e1 := ih g s2 p2 (by omega) (by omega)
              simp [likeMatchGo, e1]
            · by_cases hb : c = '\\'
              · subst hb
                cases p2 with
                | nil =>
                  simp only [List.length_nil] at h h'
                  have e1 := ih g s2 [] (by simp only [List.length_nil]; omega)
                    (by simp only [List.length_nil]; omega)
                  simp [likeMatchGo, hu, e1]
                | cons e p3 =>
                  simp only [List.length_cons] at h h'
                  have e1 := ih g s2 p3 (by omega) (by omega)
                  simp [likeMatchGo, hu, e1]
              · have e1 := ih g s2 p2 (by omega) (by omega)
                simp [likeMatchGo, hc, hu, hb, e1]

/-- Retime the fuel of the `likeMatch` wrapper. -/
theorem likeMatch_fuel (f : Nat) (s p : List Char) (hf : s.length + p.length < f) :
    likeMatchGo f s p = likeMatch s p :=
  likeMatchGo_congr f _ s p hf (by omega)

theorem likeMatch_nil (s : List Char) : likeMatch s [] = s.isEmpty := by
  rw [show likeMatch s [] = likeMatchGo (s.length + 1) s [] from by simp [likeMatch]]
  rw [likeMatchGo.eq_def]

theorem likeMatch_pct (s p : List Char) :
    likeMatch s ('%' :: p) =
      (likeMatch s p || (!s.isEmpty && likeMatch s.tail ('%' :: p))) := by
  cases s with
  | nil =>
    rw [show likeMatch [] ('%' :: p) = likeMatchGo ((p.length + 1) + 1) [] ('%' :: p) from
      (likeMatch_fuel _ [] ('%' :: p)
        (by simp only [List.length_cons, List.length_nil]; omega)).symm]
    rw [likeMatchGo.eq_def]
    have e1 := likeMatch_fuel (p.length + 1) [] p (by simp only [List.length_nil]; omega)
    simp [e1]
  | cons x s2 =>
    rw [show likeMatch (x :: s2) ('%' :: p)
        = likeMatchGo ((s2.length + 1 + p.length + 1) + 1) (x :: s2) ('%' :: p) from
      (likeMatch_fuel _ _ _ (by simp only [List.length_cons]; omega)).symm]
    rw [likeMatchGo.eq_def]
    have e1 := likeMatch_fuel (s2.length + 1 + p.length + 1) (x :: s2) p
      (by simp only [List.length_cons]; omega)
    have e2 := likeMatch_fuel (s2.length + 1 + p.length + 1) s2 ('%' :: p)
      (by simp only [List.length_cons]; omega)
    simp [e1, e2]

theorem likeMatch_nil_cons (c : Char) (p : List Char) (hc : c ≠ '%') :
    likeMatch [] (c :: p) = false := by
  rw [show likeMatch [] (c :: p) = likeMatchGo ((p.length + 1) + 1) [] (c :: p) from
    (likeMatch_fuel _ [] (c :: p)
      (by simp only [List.length_cons, List.length_nil]; omega)).symm]
  rw [likeMatchGo.eq_def]
  simp [hc]

theorem likeMatch_underscore (a : Char) (s p : List Char) :
    likeMatch (a :: s) ('_' :: p) = likeMatch s p := by
  rw [show likeMatch (a :: s) ('_' :: p)
      = likeMatchGo ((s.length + 1 + p.length + 1) + 1) (a :: s) ('_' :: p) from
    (likeMatch_fuel _ (a :: s) ('_' :: p)
      (by simp only [List.length_cons]; omega)).symm]
  rw [likeMatchGo.eq_def]
  have e1 := likeMatch_fuel (s.length + 1 + p.length + 1) s p (by omega)
  simp [e1]

theorem likeMatch_other (a c : Char) (s p : List Char)
    (hc : c ≠ '%') (hu : c ≠ '_') (hb : c ≠ '\\') :
    likeMatch (a :: s) (c :: p) = ((a = c) && likeMatch s p) := by
  rw [show likeMatch (a :: s) (c :: p)
      = likeMatchGo ((s.length + 1 + p.length + 1) + 1) (a :: s) (c :: p) from
    (likeMatch_fuel _ (a :: s) (c :: p)
      (by simp only [List.length_cons]; omega)).symm]
  rw [likeMatchGo.eq_def]
  have e1 := likeMatch_fuel (s.length + 1 + p.length + 1) s p (by omega)
  simp [hc, hu, hb, e1]

theorem likeMatch_pct_nil (s : List Char) : likeMatch s ['%'] = true := by
  induction s with
  | nil => rw [likeMatch_pct]; simp [likeMatch_nil]
  | cons x s2 ih => rw [likeMatch_pct]; simp [ih]

theorem likeMatch_plain_append_pct (t : List Char) (ht : ∀ c ∈ t, plainChar c = true) :
    ∀ s : List Char, (likeMatch s (t ++ ['%']) = true ↔ t <+: s) := by
  induction t with
  | nil =>
    intro s
    simp only [List.nil_append]
    rw [likeMatch_pct_nil]
    simp
  | cons c t2 ih =>
    intro s
    have hc := ht c (by simp)
    simp only [plainChar, Bool.not_eq_true', Bool.or_eq_false_iff,
      decide_eq_false_iff_not] at hc
    cases s with
    | nil =>
      rw [List.cons_append, likeMatch_nil_cons c _ hc.1.1]
      simp
    | cons a s2 =>
      rw [List.cons_append, likeMatch_other a c s2 (t2 ++ ['%']) hc.1.1 hc.1.2 hc.2]
      rw [List.cons_prefix_cons]
      simp [ih (fun x hx => ht x (by simp [hx])) s2]
      exact fun _ => eq_comm

theorem likeMatch_pct_iff (s p : List Char) :
    likeMatch s ('%' :: p) = true ↔ ∃ n, likeMatch (s.drop n) p = true := by
  induction s with
  | nil =>
    rw [likeMatch_pct]
    constructor
    · intro h
      exact ⟨0, by simpa using h⟩
    · rintro ⟨n, hn⟩
      simp only [List.drop_nil] at hn
      simp [hn]
  | cons x s2 ih =>
    rw [likeMatch_pct]
    constructor
    · intro h
      rcases Bool.or_eq_true_iff.mp h with h | h
      · exact ⟨0, by simpa using h⟩
      · rcases ih.mp (Bool.and_eq_true_iff.mp h).2 with ⟨n, hn⟩
        exact ⟨n + 1, by simpa using hn⟩
    · rintro ⟨n, hn⟩
      cases n with
      | zero => simp only [List.drop_zero] at hn; simp [hn]
      | succ n =>
        simp only [List.drop_succ_cons] at hn
        have := ih.mpr ⟨n, hn⟩
        simp [this]

theorem likeMatch_infix_iff (t : List Char) (ht : ∀ c ∈ t, plainChar c = true)
    (s : List Char) :
    likeMatch s ('%' :: (t ++ ['%'])) = true ↔ t <:+: s := by
  rw [likeMatch_pct_iff]
  constructor
  · rintro ⟨n, hn⟩
    exact List.infix_iff_prefix_suffix.mpr
      ⟨s.drop n, (likeMatch_plain_append_pct t ht (s.drop n)).mp hn, List.drop_suffix n s⟩
  · intro hin
    rcases List.infix_iff_prefix_suffix.mp hin with ⟨u, hpre, hsuf⟩
    rcases hsuf with ⟨v, hv⟩
    refine ⟨v.length, ?_⟩
    rw [← hv, List.drop_left]
    exact (likeMatch_plain_append_pct t ht u).mpr hpre

theorem asciiLower_plain {c : Char} (h : plainChar c = true) :
    plainChar (asciiLower c) = true := by
  unfold asciiLower
  split
  all_goals first | decide | exact h

/-- ILIKE with a `%text%` pattern built from wildcard-free text is exactly a
case-insensitive substring test. -/
theorem ilike_like_iff (value text : String) (ht : ∀ c ∈ text.toList, plainChar c = true) :
    (ilike value (like text) = true) ↔
      ((text.toList.map asciiLower) <:+: (value.toList.map asciiLower)) := by
  unfold ilike like
  have hlist : (("%" ++ text ++ "%").toList) = '%' :: (text.toList ++ ['%']) := by
    show ("%" ++ text ++ "%").data = '%' :: (text.data ++ ['%'])
    rw [String.data_append, String.data_append]
    rfl
  rw [hlist]
  simp only [List.map_cons, List.map_append, List.map_nil]
  exact likeMatch_infix_iff _
    (fun c hc => by
      rcases List.mem_map.mp hc with ⟨d, hd, rfl⟩
      exact asciiLower_plain (ht d hd)) _

/-! ### Claims about matching (C7) -/

/-- Counterexample to claim C7 as stated: with one stored variant `"abc"` in
locale 1, the search text `"a_c"` (a 1-100 character text containing `_`)
matches the name, although `"a_c"` is not a literal substring of `"abc"`:
the repository interpolates the text into the LIKE pattern verbatim. -/
theorem claim_substring_counterexample :
    countMatchesNormalized
        ⟨⟨1, 2, 3⟩, [⟨1, "abc"⟩], 2, [⟨1, 1, "abc"⟩], [], []⟩ 1 "a_c" = 1 ∧
      ¬ (("a_c".toList.map asciiLower) <:+: ("abc".toList.map asciiLower)) := by
  constructor
  · decide
  · decide

/-- Claim C7 (amended): for search texts free of the LIKE metacharacters
`%`, `_` and `\\`, a name is matched on the normalized path exactly when the
case-folded text occurs as a literal substring of one of that name's variant
values in the requested locale, and an MV row is matched exactly when it
occurs in the row's search blob; matching is not fuzzy or ranked. Texts
containing those characters are instead interpreted as LIKE wildcards or
escapes, since the repository interpolates the text into the pattern without
escaping. -/
theorem claim_substring_match (db : DB) (languageId : Nat) (text : String) (id : Nat)
    (ht : ∀ c ∈ text.toList, plainChar c = true) :
    (id ∈ matchingIdsNormalized db languageId text ↔
      ∃ v ∈ db.variants, v.name_id = id ∧ v.language_id = languageId ∧
        (text.toList.map asciiLower) <:+: (v.value.toList.map asciiLower)) ∧
    (∀ r : MVRow, r ∈ mvMatches db text ↔
      r ∈ db.mv ∧ (text.toList.map asciiLower) <:+: (r.search_blob.toList.map asciiLower)) := by
  constructor
  · rw [matchingIdsNormalized, mem_sortedDedup, List.mem_map]
    constructor
    · rintro ⟨v, hv, rfl⟩
      rw [List.mem_filter] at hv
      rcases hv with ⟨hvmem, hcond⟩
      rw [Bool.and_eq_true_iff, beq_iff_eq] at hcond
      exact ⟨v, hvmem, rfl, hcond.1, (ilike_like_iff _ _ ht).mp hcond.2⟩
    · rintro ⟨v, hv, hid, hlang, hsub⟩
      refine ⟨v, List.mem_filter.mpr ⟨hv, ?_⟩, hid⟩
      rw [Bool.and_eq_true_iff, beq_iff_eq]
      exact ⟨hlang, (ilike_like_iff _ _ ht).mpr hsub⟩
  · intro r
    rw [mvMatches, List.mem_filter]
    constructor
    · rintro ⟨hmem, hcond⟩
      exact ⟨hmem, (ilike_like_iff _ _ ht).mp hcond⟩
    · rintro ⟨hmem, hsub⟩
      exact ⟨hmem, (ilike_like_iff _ _ ht).mpr hsub⟩

/-- Witness for the amended claim C7 at a concrete database and the text
`"mar"`. -/
theorem claim_substring_match_witness :
    (∀ c ∈ "mar".toList, plainChar c = true) ∧
    ((1 ∈ matchingIdsNormalized
          ⟨⟨1, 2, 3⟩, [⟨1, "maria"⟩], 2, [⟨1, 1, "Maria"⟩], [], []⟩ 1 "mar" ↔
        ∃ v ∈ (⟨⟨1, 2, 3⟩, [⟨1, "maria"⟩], 2, [⟨1, 1, "Maria"⟩], [], []⟩ : DB).variants,
          v.name_id = 1 ∧ v.language_id = 1 ∧
            ("mar".toList.map asciiLower) <:+: (v.value.toList.map asciiLower)) ∧
      (∀ r : MVRow, r ∈ mvMatches
          ⟨⟨1, 2, 3⟩, [⟨1, "maria"⟩], 2, [⟨1, 1, "Maria"⟩], [], []⟩ "mar" ↔
        r ∈ (⟨⟨1, 2, 3⟩, [⟨1, "maria"⟩], 2, [⟨1, 1, "Maria"⟩], [], []⟩ : DB).mv ∧
          ("mar".toList.map asciiLower) <:+: (r.search_blob.toList.map asciiLower))) :=
  ⟨by decide, claim_substring_match _ 1 "mar" 1 (by decide)⟩

/-! ### Keyset pages versus offset windows (C5) -/

/-- Two lists strictly sorted on a key with the same members are equal. -/
theorem keySorted_ext {α} (key : α → Nat) :
    ∀ {l₁ l₂ : List α}, l₁.Pairwise (fun a b => key a < key b) →
      l₂.Pairwise (fun a b => key a < key b) → (∀ x, x ∈ l₁ ↔ x ∈ l₂) → l₁ = l₂ := by
  intro l₁
  induction l₁ with
  | nil =>
    intro l₂ _ _ h
    rcases l₂ with _ | ⟨b, t⟩
    · rfl
    · exact absurd ((h b).mpr (by simp)) (by simp)
  | cons a r ih =>
    intro l₂ h1 h2 h
    rcases l₂ with _ | ⟨b, t⟩
    · exact absurd ((h a).mp (by simp)) (by simp)
    rcases List.pairwise_cons.mp h1 with ⟨har, hr⟩
    rcases List.pairwise_cons.mp h2 with ⟨hbt, ht⟩
    have hab : a = b := by
      by_contra hne
      have h₁ : key b < key a := by
        rcases List.mem_cons.mp ((h a).mp (by simp)) with he | hmem
        · exact absurd he hne
        · exact hbt a hmem
      have h₂ : key a < key b := by
        rcases List.mem_cons.mp ((h b).mpr (by simp)) with he | hmem
        · exact absurd he.symm hne
        · exact har b hmem
      omega
    subst hab
    have htails : ∀ x, x ∈ r ↔ x ∈ t := by
      intro x
      constructor
      · intro hx
        rcases List.mem_cons.mp ((h x).mp (by simp [hx])) with rfl | hmem
        · exact absurd (har x hx) (by omega)
        · exact hmem
      · intro hx
        rcases List.mem_cons.mp ((h x).mpr (by simp [hx])) with rfl | hmem
        · exact absurd (hbt x hx) (by omega)
        · exact hmem
    rw [ih hr ht htails]

/-- In a strictly key-sorted list, keeping the elements whose key exceeds the
key found at index `i` is the same as dropping the first `i + 1` elements. -/
theorem keySorted_filter_lt {α} (key : α → Nat) :
    ∀ (l : List α) (i m : Nat), l.Pairwise (fun a b => key a < key b) →
      (l.map key)[i]? = some m →
      l.filter (fun x => decide (m < key x)) = l.drop (i + 1) := by
  intro l
  induction l with
  | nil => intro i m _ hm; simp at hm
  | cons a r ih =>
    intro i m hp hm
    rcases List.pairwise_cons.mp hp with ⟨har, hr⟩
    cases i with
    | zero =>
      simp only [List.map_cons, List.getElem?_cons_zero, Option.some.injEq] at hm
      subst hm
      rw [List.filter_cons, if_neg (by simp)]
      rw [List.drop_succ_cons, List.drop_zero]
      exact List.filter_eq_self.mpr (fun x hx => decide_eq_true (har x hx))
    | succ i =>
      simp only [List.map_cons, List.getElem?_cons_succ] at hm
      have hmem : m ∈ r.map key := List.getElem?_mem hm
      rcases List.mem_map.mp hmem with ⟨x, hx, hkx⟩
      have hax : key a < m := hkx ▸ har x hx
      rw [List.filter_cons, if_neg (by simp; omega)]
      rw [List.drop_succ_cons]
      exact ih i m hr hm

/-- Nat specialisation of `keySorted_filter_lt`. -/
theorem natSorted_filter_lt (l : List Nat) (i m : Nat) (hp : l.Pairwise (· < ·))
    (hm : l[i]? = some m) : l.filter (fun x => decide (m < x)) = l.drop (i + 1) := by
  have h := keySorted_filter_lt (fun x : Nat => x) l i m hp (by simpa using hm)
  simpa using h

/-- The SQL cursor comparison against a cursor that is a cast natural. -/
theorem cursorOk_natCast (m x : Nat) : cursorOk (some ((m : Nat) : ℚ)) x = decide (m < x) := by
  simp [cursorOk]

/-- The cursor condition inside the page query commutes out of the
DISTINCT/ORDER BY. -/
theorem pageIdsNormalized_eq (db : DB) (languageId : Nat) (text : String)
    (c : Option ℚ) (lim : Nat) :
    pageIdsNormalized db languageId text c lim
      = ((matchingIdsNormalized db languageId text).filter
          (fun id => cursorOk c id)).take lim := by
  unfold pageIdsNormalized matchingIdsNormalized
  congr 1
  apply strictSorted_ext (sortedDedup_sorted _)
    ((sortedDedup_sorted _).sublist (List.filter_sublist _))
  intro x
  rw [mem_sortedDedup, List.mem_filter, mem_sortedDedup, List.mem_map, List.mem_map]
  constructor
  · rintro ⟨v, hv, rfl⟩
    rw [List.mem_filter] at hv
    rcases hv with ⟨hvm, hcond⟩
    rw [Bool.and_eq_true_iff, Bool.and_eq_true_iff] at hcond
    exact ⟨⟨v, List.mem_filter.mpr ⟨hvm, Bool.and_eq_true_iff.mpr hcond.1⟩, rfl⟩, hcond.2⟩
  · rintro ⟨⟨v, hv, rfl⟩, hx⟩
    rw [List.mem_filter] at hv
    rcases hv with ⟨hvm, hcond⟩
    rw [Bool.and_eq_true_iff] at hcond
    refine ⟨v, List.mem_filter.mpr ⟨hvm, ?_⟩, rfl⟩
    rw [Bool.and_eq_true_iff, Bool.and_eq_true_iff]
    exact ⟨hcond, hx⟩

/-- With a derived cursor, the normalized keyset page is exactly the offset
window, provided the offset is within the matching set. -/
theorem pageIds_drop (db : DB) (languageId : Nat) (text : String) (offset lim : Nat)
    (h1 : 1 ≤ offset) (hoff : offset ≤ (matchingIdsNormalized db languageId text).length) :
    pageIdsNormalized db languageId text
        (castCursor (deriveCursorIdNormalized db languageId text offset)) lim
      = ((matchingIdsNormalized db languageId text).drop offset).take lim := by
  have hidx : offset - 1 < (matchingIdsNormalized db languageId text).length := by omega
  have hd : deriveCursorIdNormalized db languageId text offset
      = some (matchingIdsNormalized db languageId text)[offset - 1] := by
    unfold deriveCursorIdNormalized
    exact List.getElem?_eq_getElem hidx
  rw [hd]
  rw [show castCursor (some (matchingIdsNormalized db languageId text)[offset - 1])
      = some (((matchingIdsNormalized db languageId text)[offset - 1] : Nat) : ℚ) from rfl]
  rw [pageIdsNormalized_eq]
  rw [List.filter_congr (fun x _ => cursorOk_natCast _ x)]
  have hsorted : (matchingIdsNormalized db languageId text).Pairwise (· < ·) := by
    unfold matchingIdsNormalized
    exact sortedDedup_sorted _
  rw [natSorted_filter_lt _ (offset - 1) _ hsorted (List.getElem?_eq_getElem hidx)]
  rw [show offset - 1 + 1 = offset from by omega]

/-- Split a conjunctive filter. -/
theorem filter_and_right {α} (A B : α → Bool) (l : List α) :
    l.filter (fun r => A r && B r) = (l.filter A).filter B := by
  rw [List.filter_filter]
  exact List.filter_congr (fun x _ => Bool.and_comm (A x) (B x))

theorem mvSorted_pairwise (l : List MVRow) :
    (sortLe (fun a b => a.name_id ≤ b.name_id) l).Pairwise
      (fun a b => a.name_id ≤ b.name_id) :=
  sortLe_pairwise (R := fun a b : MVRow => a.name_id ≤ b.name_id)
    (fun a b => decide (a.name_id ≤ b.name_id))
    (fun _ _ h => of_decide_eq_true h)
    (fun _ _ h => le_of_not_le (of_decide_eq_false h))
    (fun _ _ _ hab hbc => Nat.le_trans hab hbc) l

theorem mvSorted_strict (l : List MVRow) (h : (l.map MVRow.name_id).Nodup) :
    (sortLe (fun a b => a.name_id ≤ b.name_id) l).Pairwise
      (fun a b => a.name_id < b.name_id) := by
  have h1 := mvSorted_pairwise l
  have hperm : List.Perm (sortLe (fun a b => a.name_id ≤ b.name_id) l) l := sortLe_perm _ l
  have h2 : ((sortLe (fun a b => a.name_id ≤ b.name_id) l).map MVRow.name_id).Nodup :=
    ((hperm.map MVRow.name_id).nodup_iff).mpr h
  have h3 : (sortLe (fun a b => a.name_id ≤ b.name_id) l).Pairwise
      (fun a b => a.name_id ≠ b.name_id) := List.pairwise_map.mp h2
  exact (h1.and h3).imp (fun hx => lt_of_le_of_ne hx.1 hx.2)

/-- Sorting rows by id then projecting the id column is sorting the ids. -/
theorem mv_map_sortLe (l : List MVRow) :
    (sortLe (fun a b => a.name_id ≤ b.name_id) l).map MVRow.name_id
      = sortNat (l.map MVRow.name_id) := by
  refine List.eq_of_perm_of_sorted (r := fun a b : Nat => a ≤ b) ?_ ?_ ?_
  · exact ((sortLe_perm _ l).map _).trans (sortLe_perm _ _).symm
  · exact List.pairwise_map.mpr (mvSorted_pairwise l)
  · exact sortNat_sorted _

/-- With distinct ids, a row filter on the id column commutes with sorting. -/
theorem mv_sortLe_filter (l : List MVRow) (hnd : (l.map MVRow.name_id).Nodup)
    (Q : MVRow → Bool) :
    sortLe (fun a b => a.name_id ≤ b.name_id) (l.filter Q)
      = (sortLe (fun a b => a.name_id ≤ b.name_id) l).filter Q := by
  apply keySorted_ext MVRow.name_id
  · exact mvSorted_strict (l.filter Q)
      (hnd.sublist ((List.filter_sublist l).map MVRow.name_id))
  · exact (mvSorted_strict l hnd).sublist (List.filter_sublist _)
  · intro x
    rw [(sortLe_perm _ (l.filter Q)).mem_iff, List.mem_filter, List.mem_filter,
      (sortLe_perm _ l).mem_iff]

theorem length_matchingIdsMV (db : DB) (t : String) :
    (matchingIdsMV db t).length = countMatchesMV db t := by
  unfold matchingIdsMV countMatchesMV sortNat
  rw [(sortLe_perm _ _).length_eq, List.length_map]

/-- With a derived cursor, the MV keyset page is exactly the offset window,
provided ids are unique and the offset is within the matching set. -/
theorem pageDataMV_drop (db : DB) (code t : String) (offset lim : Nat)
    (hnodup : (db.mv.map MVRow.name_id).Nodup)
    (h1 : 1 ≤ offset) (hoff : offset ≤ countMatchesMV db t) :
    pageDataMV db code t (castCursor (deriveCursorIdMV db t offset)) lim
      = ((((sortLe (fun a b => a.name_id ≤ b.name_id) (mvMatches db t)).map
          (mvPageRow code)).drop offset).take lim) := by
  have hndm : ((mvMatches db t).map MVRow.name_id).Nodup :=
    hnodup.sublist ((List.filter_sublist db.mv).map MVRow.name_id)
  have hidx : offset - 1 < (matchingIdsMV db t).length := by
    rw [length_matchingIdsMV]; omega
  have hd : deriveCursorIdMV db t offset = some (matchingIdsMV db t)[offset - 1] := by
    unfold deriveCursorIdMV
    exact List.getElem?_eq_getElem hidx
  rw [hd]
  rw [show castCursor (some (matchingIdsMV db t)[offset - 1])
      = some (((matchingIdsMV db t)[offset - 1] : Nat) : ℚ) from rfl]
  unfold pageDataMV
  rw [filter_and_right]
  rw [show db.mv.filter (fun r => ilike r.search_blob (like t)) = mvMatches db t from rfl]
  rw [mv_sortLe_filter _ hndm]
  rw [List.filter_congr (fun x _ => cursorOk_natCast _ x.name_id)]
  have hmap : (sortLe (fun a b => a.name_id ≤ b.name_id) (mvMatches db t)).map MVRow.name_id
      = matchingIdsMV db t := mv_map_sortLe _
  have hget : ((sortLe (fun a b => a.name_id ≤ b.name_id) (mvMatches db t)).map
      MVRow.name_id)[offset - 1]? = some (matchingIdsMV db t)[offset - 1] := by
    rw [hmap]
    exact List.getElem?_eq_getElem hidx
  rw [keySorted_filter_lt MVRow.name_id _ (offset - 1) _ (mvSorted_strict _ hndm) hget]
  rw [show offset - 1 + 1 = offset from by omega]
  rw [List.map_drop]

/-- Counterexample to claim C5 as stated: one matching name, `page = 3`,
`pageSize = 1`, no cursor. The computed offset (2) lies beyond the matching
set, the derived cursor comes back `null`, and `searchNames` serves the
FIRST page (one row) where an offset-paging caller would receive an empty
page. -/
theorem claim_offset_equivalence_counterexample :
    (searchNames ⟨⟨1, 2, 3⟩, [⟨1, "maria"⟩], 2, [⟨1, 1, "maria"⟩], [], []⟩ false
        ⟨"mar", Lang.en, 1, 3, none⟩).getNames.length = 1 ∧
    (searchNamesOffsetSpec ⟨⟨1, 2, 3⟩, [⟨1, "maria"⟩], 2, [⟨1, 1, "maria"⟩], [], []⟩ false
        ⟨"mar", Lang.en, 1, 3, none⟩).getNames.length = 0 := by
  constructor
  · decide
  · decide

/-- Claim C5 (amended): for a request with no valid cursor and `page > 1`,
the orchestrator derives a cursor from `offset = (page-1)*pageSize` via one
ordered, offset-skipping, single-row lookup on the active read path (the
lookup skips `offset - 1` rows, fetching the last id of the previous page),
and the returned page equals the one an offset-paging caller would receive —
provided the offset does not exceed the number of matching names (and, on
the MV path, the view holds one row per name). When the offset lies beyond
the matching set the derived cursor is `null` and the call returns the first
page instead of an empty page. -/
theorem claim_offset_equivalence (db : DB) (useMV : Bool) (inp : SearchInput)
    (hcur : decodeCursor inp.cursor = none)
    (hpage : 1 < inp.page)
    (hlim : 1 ≤ inp.pagePerRecord)
    (hnodup : (db.mv.map MVRow.name_id).Nodup)
    (hoff : (inp.page - 1) * inp.pagePerRecord ≤
      (if useMV then countMatchesMV db (strLower inp.searchText)
       else countMatchesNormalized db (db.langs.idOf inp.lang) inp.searchText)) :
    searchNames db useMV inp = searchNamesOffsetSpec db useMV inp := by
  have hoffpos : 1 ≤ (inp.page - 1) * inp.pagePerRecord :=
    Nat.mul_pos (by omega) (by omega)
  cases useMV with
  | false =>
    simp only [if_neg (by simp : ¬(false = true))] at hoff
    simp only [searchNames, searchNamesOffsetSpec, hcur, Option.isNone_none,
      Bool.false_eq_true, if_false]
    rw [if_pos (show True ∧ 1 < inp.page from ⟨trivial, hpage⟩)]
    rw [pageIds_drop db (db.langs.idOf inp.lang) inp.searchText _ inp.pagePerRecord
      hoffpos (by rw [show (matchingIdsNormalized db (db.langs.idOf inp.lang)
        inp.searchText).length = countMatchesNormalized db (db.langs.idOf inp.lang)
        inp.searchText from rfl]; exact hoff)]
  | true =>
    simp only [if_pos (rfl : (true : Bool) = true)] at hoff
    simp only [searchNames, searchNamesOffsetSpec, hcur, Option.isNone_none,
      Bool.true_eq_false, if_true]
    rw [if_pos (show True ∧ 1 < inp.page from ⟨trivial, hpage⟩)]
    rw [pageDataMV_drop db inp.lang.code (strLower inp.searchText) _ inp.pagePerRecord
      hnodup hoffpos hoff]

/-- Witness for the amended claim C5 at a concrete database: two matching
names, `page = 2`, `pageSize = 1`, no cursor. -/
theorem claim_offset_equivalence_witness :
    decodeCursor none = none ∧ 1 < 2 ∧ 1 ≤ 1 ∧
      ((⟨⟨1, 2, 3⟩, [⟨1, "maria"⟩, ⟨2, "mario"⟩], 3,
          [⟨1, 1, "maria"⟩, ⟨2, 1, "mario"⟩], [], []⟩ : DB).mv.map MVRow.name_id).Nodup ∧
      (2 - 1) * 1 ≤
        (if false then countMatchesMV
            ⟨⟨1, 2, 3⟩, [⟨1, "maria"⟩, ⟨2, "mario"⟩], 3,
              [⟨1, 1, "maria"⟩, ⟨2, 1, "mario"⟩], [], []⟩ (strLower "mar")
         else countMatchesNormalized
            ⟨⟨1, 2, 3⟩, [⟨1, "maria"⟩, ⟨2, "mario"⟩], 3,
              [⟨1, 1, "maria"⟩, ⟨2, 1, "mario"⟩], [], []⟩
            ((⟨⟨1, 2, 3⟩, [⟨1, "maria"⟩, ⟨2, "mario"⟩], 3,
              [⟨1, 1, "maria"⟩, ⟨2, 1, "mario"⟩], [], []⟩ : DB).langs.idOf Lang.en) "mar") ∧
      searchNames
          ⟨⟨1, 2, 3⟩, [⟨1, "maria"⟩, ⟨2, "mario"⟩], 3,
            [⟨1, 1, "maria"⟩, ⟨2, 1, "mario"⟩], [], []⟩ false
          ⟨"mar", Lang.en, 1, 2, none⟩
        = searchNamesOffsetSpec
          ⟨⟨1, 2, 3⟩, [⟨1, "maria"⟩, ⟨2, "mario"⟩], 3,
            [⟨1, 1, "maria"⟩, ⟨2, 1, "mario"⟩], [], []⟩ false
          ⟨"mar", Lang.en, 1, 2, none⟩ :=
  ⟨rfl, by norm_num, by norm_num, by decide, by decide,
    claim_offset_equivalence _ false _ rfl (by norm_num) (by norm_num) (by decide) (by decide)⟩

/-! ### Aggregation rows (C6) -/

/-- When the join source has at most one row, the left-join row list is the
single optional head. -/
theorem optList_of_len_le_one (l : List String) (h : l.length ≤ 1) :
    optList l = [l.head?] := by
  match l with
  | [] => rfl
  | [v] => rfl
  | a :: b :: r => simp at h

theorem flatMap_eq_map_of_singleton {α β} (l : List α) (F : α → List β) (G : α → β)
    (h : ∀ x ∈ l, F x = [G x]) : l.flatMap F = l.map G := by
  induction l with
  | nil => rfl
  | cons a r ih =>
    rw [List.flatMap_cons, h a (by simp), ih (fun x hx => h x (by simp [hx]))]
    rfl

/-- Counterexample to claim C6 as stated: a name with two stored meanings in
the requested locale produces two aggregated rows for a single input id,
because the SQL groups by `(n.id, nm_req.meaning, nm_en.meaning)`. -/
theorem claim_aggregate_counterexample :
    (fetchAggregatedByIds ⟨⟨1, 2, 3⟩, [⟨1, "k"⟩], 2, [],
        [⟨1, 2, "a"⟩, ⟨1, 2, "b"⟩], []⟩ [1] 2 1 3 2).length = 2 ∧
      ([1] : List Nat).length = 1 := by
  constructor
  · decide
  · rfl

/-- Claim C6 (amended): for a strictly ascending list of ids of stored names,
each with at most one meaning in the requested locale and at most one in the
default (`en`) locale, `fetchAggregatedByIds` returns exactly one aggregated
row per input id in the same order: the least Tamil variant as representative
value, the deduplicated sorted English and French variant lists, and the
description resolved as the requested locale's meaning, else the default
locale's meaning, else `NULL` (shaped to the empty string by the service).
Without the at-most-one-meaning condition the query returns one row per
meaning combination (see the counterexample). -/
theorem claim_aggregate_rows (db : DB) (ids : List Nat) (reqLangId : Nat)
    (hasc : ids.Pairwise (· < ·))
    (hmem : ∀ i ∈ ids, ∃ n ∈ db.names, n.id = i)
    (hreq : ∀ i ∈ ids, (meaningValues db i reqLangId).length ≤ 1)
    (hen : ∀ i ∈ ids, (meaningValues db i db.langs.en).length ≤ 1) :
    fetchAggregatedByIds db ids db.langs.ta db.langs.en db.langs.fr reqLangId
      = ids.map (fun id =>
          { name_id := id
            tamil := aggFirst (variantValues db id db.langs.ta)
            english := aggDistinct (variantValues db id db.langs.en)
            french := aggDistinct (variantValues db id db.langs.fr)
            description := ((meaningValues db id reqLangId).head?).orElse
              (fun _ => (meaningValues db id db.langs.en).head?) }) := by
  unfold fetchAggregatedByIds
  have hsel : sortedDedup ((db.names.filter (fun n => ids.contains n.id)).map NameRec.id)
      = ids := by
    apply strictSorted_ext (sortedDedup_sorted _) hasc
    intro x
    rw [mem_sortedDedup, List.mem_map]
    constructor
    · rintro ⟨n, hn, rfl⟩
      rw [List.mem_filter] at hn
      simpa using hn.2
    · intro hx
      rcases hmem x hx with ⟨n, hn, rfl⟩
      exact ⟨n, List.mem_filter.mpr ⟨hn, by simpa using hx⟩, rfl⟩
  rw [hsel]
  apply flatMap_eq_map_of_singleton
  intro id hid
  rw [optList_of_len_le_one _ (hreq id hid), optList_of_len_le_one _ (hen id hid)]
  rfl

/-- Witness for the amended claim C6 at a concrete database. -/
theorem claim_aggregate_rows_witness :
    (([1] : List Nat).Pairwise (· < ·)) ∧
      (∀ i ∈ ([1] : List Nat), ∃ n ∈ (⟨⟨1, 2, 3⟩, [⟨1, "maria"⟩], 2,
        [⟨1, 1, "Maria"⟩, ⟨1, 2, "மரியா"⟩], [⟨1, 1, "beloved"⟩], []⟩ : DB).names, n.id = i) ∧
      fetchAggregatedByIds
          ⟨⟨1, 2, 3⟩, [⟨1, "maria"⟩], 2,
            [⟨1, 1, "Maria"⟩, ⟨1, 2, "மரியா"⟩], [⟨1, 1, "beloved"⟩], []⟩ [1] 2 1 3 1
        = [{ name_id := 1
             tamil := aggFirst (variantValues ⟨⟨1, 2, 3⟩, [⟨1, "maria"⟩], 2,
               [⟨1, 1, "Maria"⟩, ⟨1, 2, "மரியா"⟩], [⟨1, 1, "beloved"⟩], []⟩ 1 2)
             english := aggDistinct (variantValues ⟨⟨1, 2, 3⟩, [⟨1, "maria"⟩], 2,
               [⟨1, 1, "Maria"⟩, ⟨1, 2, "மரியா"⟩], [⟨1, 1, "beloved"⟩], []⟩ 1 1)
             french := aggDistinct (variantValues ⟨⟨1, 2, 3⟩, [⟨1, "maria"⟩], 2,
               [⟨1, 1, "Maria"⟩, ⟨1, 2, "மரியா"⟩], [⟨1, 1, "beloved"⟩], []⟩ 1 3)
             description := ((meaningValues ⟨⟨1, 2, 3⟩, [⟨1, "maria"⟩], 2,
                 [⟨1, 1, "Maria"⟩, ⟨1, 2, "மரியா"⟩], [⟨1, 1, "beloved"⟩], []⟩ 1 1).head?).orElse
               (fun _ => (meaningValues ⟨⟨1, 2, 3⟩, [⟨1, "maria"⟩], 2,
                 [⟨1, 1, "Maria"⟩, ⟨1, 2, "மரியா"⟩], [⟨1, 1, "beloved"⟩], []⟩ 1 1).head?) }] := by
  refine ⟨by decide, by decide, ?_⟩
  have h := claim_aggregate_rows
    ⟨⟨1, 2, 3⟩, [⟨1, "maria"⟩], 2,
      [⟨1, 1, "Maria"⟩, ⟨1, 2, "மரியா"⟩], [⟨1, 1, "beloved"⟩], []⟩ [1] 1
    (by decide) (by decide) (by decide) (by decide)
  simpa using h

/-- Membership on the triple key survives appending rows. -/
theorem rowMem_append_left (t e : List Row3) (r : Row3) (h : rowMem t r = true) :
    rowMem (t ++ e) r = true := by
  unfold rowMem at h ⊢
  rw [List.any_append, h, Bool.true_or]

/-- A freshly appended row is a member. -/
theorem rowMem_self (t : List Row3) (r : Row3) : rowMem (t ++ [r]) r = true := by
  unfold rowMem
  rw [List.any_append]
  simp

/-- The `ON CONFLICT DO NOTHING` insert only appends rows. -/
theorem insertTriples_extends (nameId : Nat) (items : List UpsertItem) :
    ∀ t : List Row3, ∃ e, (insertTriples nameId items t).1 = t ++ e := by
  induction items with
  | nil => exact fun t => ⟨[], by simp [insertTriples]⟩
  | cons j is ih =>
    intro t
    by_cases h : rowMem t ⟨nameId, j.language_id, j.value⟩ = true
    · simpa [insertTriples, h] using ih t
    · obtain ⟨e, he⟩ := ih (t ++ [⟨nameId, j.language_id, j.value⟩])
      refine ⟨⟨nameId, j.language_id, j.value⟩ :: e, ?_⟩
      simp [insertTriples, h, he]

/-- After the insert, every submitted item's triple is present. -/
theorem insertTriples_mem (nameId : Nat) (items : List UpsertItem) :
    ∀ t, ∀ i ∈ items,
      rowMem (insertTriples nameId items t).1 ⟨nameId, i.language_id, i.value⟩ = true := by
  induction items with
  | nil => intro t i hi; cases hi
  | cons j is ih =>
    intro t i hi
    rcases List.mem_cons.mp hi with rfl | hi'
    · by_cases h : rowMem t ⟨nameId, i.language_id, i.value⟩ = true
      · obtain ⟨e, he⟩ := insertTriples_extends nameId is t
        simp only [insertTriples, h, if_true]
        rw [he]
        exact rowMem_append_left _ _ _ h
      · obtain ⟨e, he⟩ :=
          insertTriples_extends nameId is (t ++ [⟨nameId, i.language_id, i.value⟩])
        simp only [insertTriples, h, if_false]
        rw [he]
        exact rowMem_append_left _ _ _ (rowMem_self t _)
    · by_cases h : rowMem t ⟨nameId, j.language_id, j.value⟩ = true
      · simpa [insertTriples, h] using ih t i hi'
      · simpa [insertTriples, h] using ih (t ++ [⟨nameId, j.language_id, j.value⟩]) i hi'

/-- When every item is already stored, the insert is a no-op that reports
zero inserted rows. -/
theorem insertTriples_all_mem (nameId : Nat) (items : List UpsertItem) :
    ∀ t, (∀ i ∈ items, rowMem t ⟨nameId, i.language_id, i.value⟩ = true) →
      insertTriples nameId items t = (t, 0) := by
  induction items with
  | nil => intro t _; rfl
  | cons j is ih =>
    intro t h
    have hj := h j (List.mem_cons_self j is)
    simp only [insertTriples, hj, if_true]
    exact ih t (fun i hi => h i (List.mem_cons_of_mem j hi))

/-- At most one row is inserted per submitted item. -/
theorem insertTriples_count_le (nameId : Nat) (items : List UpsertItem) :
    ∀ t, (insertTriples nameId items t).2 ≤ items.length := by
  induction items with
  | nil => intro t; simp [insertTriples]
  | cons j is ih =>
    intro t
    by_cases h : rowMem t ⟨nameId, j.language_id, j.value⟩ = true
    · have := ih t
      simp only [insertTriples, h, if_true, List.length_cons]
      omega
    · have := ih (t ++ [⟨nameId, j.language_id, j.value⟩])
      simp [insertTriples, h]
      omega

/-- The batch upsert only appends to the table. -/
theorem upsertTriples_snd_extends (nameId : Nat) (items : List UpsertItem) (t : List Row3) :
    ∃ e, (upsertTriples nameId items t).2 = t ++ e := by
  by_cases h : items.isEmpty
  · exact ⟨[], by simp [upsertTriples, h]⟩
  · simpa [upsertTriples, h] using insertTriples_extends nameId items t

/-- After the batch upsert, each submitted item's triple is stored. -/
theorem upsertTriples_mem (nameId : Nat) (items : List UpsertItem) (t : List Row3) :
    ∀ i ∈ items,
      rowMem (upsertTriples nameId items t).2 ⟨nameId, i.language_id, i.value⟩ = true := by
  intro i hi
  have hne : items.isEmpty = false := by cases items; cases hi; rfl
  simpa [upsertTriples, hne] using insertTriples_mem nameId items t i hi

/-- Upserting a batch whose triples are all already stored changes
nothing: zero inserted and every item counted a duplicate. -/
theorem upsertTriples_stationary (nameId : Nat) (items : List UpsertItem) (t : List Row3)
    (h : ∀ i ∈ items, rowMem t ⟨nameId, i.language_id, i.value⟩ = true) :
    (upsertTriples nameId items t).2 = t ∧
    (upsertTriples nameId items t).1.insertedCount = 0 ∧
    (upsertTriples nameId items t).1.duplicateCount = items.length := by
  by_cases he : items.isEmpty
  · cases items with
    | nil => simp [upsertTriples]
    | cons j is => simp [List.isEmpty] at he
  · have hins := insertTriples_all_mem nameId items t h
    simp [upsertTriples, he, hins]

/-- The reported inserted and duplicate counts always sum to the batch
size. -/
theorem upsertTriples_ins_add_dup (nameId : Nat) (items : List UpsertItem) (t : List Row3) :
    (upsertTriples nameId items t).1.insertedCount +
      (upsertTriples nameId items t).1.duplicateCount = items.length := by
  by_cases he : items.isEmpty
  · cases items with
    | nil => simp [upsertTriples]
    | cons j is => simp [List.isEmpty] at he
  · have hle := insertTriples_count_le nameId items t
    simp [upsertTriples, he]
    omega

/-- `find?` is stable under appending rows once it has found a match. -/
theorem find?_stable {α} {p : α → Bool} {l : List α} {a : α} (e : List α)
    (h : l.find? p = some a) : (l ++ e).find? p = some a := by
  rw [List.find?_append, h]
  rfl

/-- `ensureName` leaves every field but `names`/`nextNameId` unchanged and
only appends to `names`. -/
theorem ensureName_dbExtends (k : String) (db : DB) : dbExtends db (ensureName k db).2 := by
  unfold ensureName dbExtends
  cases h : db.names.find? (fun n => n.canonical_key == k) with
  | some n => exact ⟨rfl, ⟨[], by simp⟩, ⟨[], by simp⟩, ⟨[], by simp⟩⟩
  | none => exact ⟨rfl, ⟨[⟨db.nextNameId, k⟩], rfl⟩, ⟨[], by simp⟩, ⟨[], by simp⟩⟩

/-- `ensureName` does not touch the triple tables or the directory. -/
theorem ensureName_tables (k : String) (db : DB) :
    (ensureName k db).2.variants = db.variants ∧
    (ensureName k db).2.meanings = db.meanings ∧
    (ensureName k db).2.langs = db.langs := by
  unfold ensureName
  cases h : db.names.find? (fun n => n.canonical_key == k) with
  | some n => exact ⟨rfl, rfl, rfl⟩
  | none => exact ⟨rfl, rfl, rfl⟩

/-- After `ensureName`, looking the key up finds exactly the returned id
with that key. -/
theorem ensureName_find (k : String) (db : DB) :
    (ensureName k db).2.names.find? (fun n => n.canonical_key == k)
      = some ⟨(ensureName k db).1, k⟩ := by
  cases h : db.names.find? (fun n => n.canonical_key == k) with
  | some n =>
    have hp := List.find?_some h
    have hk : n.canonical_key = k := by simpa using hp
    simp only [ensureName, h]
    cases n
    simp_all
  | none =>
    simp only [ensureName, h]
    rw [List.find?_append, h]
    simp

/-- Extension is reflexive. -/
theorem dbExtends_refl (db : DB) : dbExtends db db :=
  ⟨rfl, ⟨[], (List.append_nil _).symm⟩, ⟨[], (List.append_nil _).symm⟩,
    ⟨[], (List.append_nil _).symm⟩⟩

/-- Extension is transitive. -/
theorem dbExtends_trans {a b c : DB} (h1 : dbExtends a b) (h2 : dbExtends b c) :
    dbExtends a c := by
  obtain ⟨hl1, ⟨e1, hn1⟩, ⟨f1, hv1⟩, ⟨g1, hm1⟩⟩ := h1
  obtain ⟨hl2, ⟨e2, hn2⟩, ⟨f2, hv2⟩, ⟨g2, hm2⟩⟩ := h2
  refine ⟨hl2.trans hl1, ⟨e1 ++ e2, ?_⟩, ⟨f1 ++ f2, ?_⟩, ⟨g1 ++ g2, ?_⟩⟩ <;>
    simp [hn2, hn1, hv2, hv1, hm2, hm1]

/-- The variant upsert extends the state. -/
theorem upsertVariants_dbExtends (nameId : Nat) (items : List UpsertItem) (db : DB) :
    dbExtends db (upsertVariants nameId items db).2 := by
  obtain ⟨e, he⟩ := upsertTriples_snd_extends nameId items db.variants
  exact ⟨rfl, ⟨[], by simp [upsertVariants]⟩, ⟨e, by simpa [upsertVariants] using he⟩,
    ⟨[], by simp [upsertVariants]⟩⟩

/-- The meaning upsert extends the state. -/
theorem upsertMeanings_dbExtends (nameId : Nat) (items : List UpsertItem) (db : DB) :
    dbExtends db (upsertMeanings nameId items db).2 := by
  obtain ⟨e, he⟩ := upsertTriples_snd_extends nameId items db.meanings
  exact ⟨rfl, ⟨[], by simp [upsertMeanings]⟩, ⟨[], by simp [upsertMeanings]⟩,
    ⟨e, by simpa [upsertMeanings] using he⟩⟩

/-- With an empty failure oracle, the loop is exactly `runRows`. -/
theorem processRows_none (langs : LangMap) (now : Nat) :
    ∀ (rows : List NameRow) (i : Nat) (db : DB),
      processRows langs now none i rows db = .ok (runRows langs now i rows db) := by
  intro rows
  induction rows with
  | nil => intro i db; rfl
  | cons r rest ih =>
    intro i db
    simp [processRows, runRows, ih]

/-- An `ok` run of the loop produces one outcome per remaining row. -/
theorem processRows_ok_length (langs : LangMap) (now : Nat)
    (failAt : Option (Nat × FailPoint)) :
    ∀ (rows : List NameRow) (i : Nat) (db : DB) (outs : List RowOutcome) (dbE : DB),
      processRows langs now failAt i rows db = .ok (outs, dbE) →
        outs.length = rows.length := by
  intro rows
  induction rows with
  | nil =>
    intro i db outs dbE h
    simp only [processRows] at h
    injection h with h1
    injection h1 with h2 h3
    rw [← h2]
    rfl
  | cons r rest ih =>
    intro i db outs dbE h
    simp only [processRows] at h
    split at h
    · cases h
    · split at h
      · cases h
      · split at h
        · cases h
        · split at h
          · cases h
          · rename_i o2 heq
            injection h with h1
            injection h1 with h2 h3
            rw [← h2]
            simpa using ih _ _ _ _ heq

/-- When the oracle targets a row the loop reaches, the loop throws that
row's storage error. -/
theorem processRows_fail (langs : LangMap) (now : Nat) (i : Nat) (fp : FailPoint) :
    ∀ (rows : List NameRow) (j : Nat) (db : DB), j ≤ i → i < j + rows.length →
      processRows langs now (some (i, fp)) j rows db = .error (.storage i) := by
  intro rows
  induction rows with
  | nil =>
    intro j db h1 h2
    simp only [List.length_nil] at h2
    omega
  | cons r rest ih =>
    intro j db hji hlt
    by_cases hj : j = i
    · subst hj
      cases fp with
      | atEnsure => simp [processRows]
      | atVariants => simp [processRows]
      | atMeanings => simp [processRows]
    · have hij : i ≠ j := fun hcon => hj hcon.symm
      simp only [List.length_cons] at hlt
      simp only [processRows, Option.some.injEq, Prod.mk.injEq]
      rw [if_neg (fun hcon => hij hcon.1), if_neg (fun hcon => hij hcon.1),
        if_neg (fun hcon => hij hcon.1)]
      rw [ih (j + 1) _ (by omega) (by omega)]

/-- Claim C10: every completed `bulkPublish` call reports
`totals.namesEnsured` equal to `totals.rows`, the number of input rows —
the counter counts each row once whether the canonical name row was
created or reused. -/
theorem claim_names_ensured_total (db : DB) (rows : List NameRow) (dry : Bool)
    (src : Option String) (now : Nat) (failAt : Option (Nat × FailPoint))
    (res : BulkPublishResult) (dbE : DB)
    (h : bulkPublish db rows dry src now failAt = (.ok res, dbE)) :
    res.totals.namesEnsured = res.totals.rows ∧ res.totals.rows = rows.length := by
  unfold bulkPublish at h
  cases heq : processRows db.langs now failAt 0 rows db with
  | error e =>
    rw [heq] at h
    simp at h
  | ok p =>
    obtain ⟨outs, dbEnd⟩ := p
    rw [heq] at h
    have hlen := processRows_ok_length db.langs now failAt rows 0 db outs dbEnd heq
    cases dry <;>
    · simp only [Bool.false_eq_true, if_false, if_true] at h
      injection h with h1 h2
      injection h1 with h3
      rw [← h3]
      simp [totalsOf, hlen]

/-- Witness for claim C10 at a concrete call. -/
theorem claim_names_ensured_total_witness :
    bulkPublish ⟨⟨1, 2, 3⟩, [], 1, [], [], []⟩
        [⟨some "maria", [⟨Lang.en, "Maria"⟩], []⟩] false none 0 none
      = (.ok ⟨⟨1, 1, 1, 0, 0, 0⟩,
          [⟨0, "maria", 1, 1, 0, [(some Lang.en, "Maria")], 0, 0, []⟩], false, none⟩,
         ⟨⟨1, 2, 3⟩, [⟨1, "maria"⟩], 2, [⟨1, 1, "Maria"⟩], [], []⟩) ∧
    (⟨⟨1, 1, 1, 0, 0, 0⟩,
        [⟨0, "maria", 1, 1, 0, [(some Lang.en, "Maria")], 0, 0, []⟩], false, none⟩
      : BulkPublishResult).totals.namesEnsured
      = (⟨⟨1, 1, 1, 0, 0, 0⟩,
          [⟨0, "maria", 1, 1, 0, [(some Lang.en, "Maria")], 0, 0, []⟩], false, none⟩
        : BulkPublishResult).totals.rows := by
  refine ⟨rfl, ?_⟩
  exact (claim_names_ensured_total ⟨⟨1, 2, 3⟩, [], 1, [], [], []⟩
    [⟨some "maria", [⟨Lang.en, "Maria"⟩], []⟩] false none 0 none _ _ rfl).1

/-- Claim C1: a dry run executes the whole pipeline, rolls the stored
state back to exactly what it was, and returns the fully computed summary
(the one a real run would return, with `dryRun := true`) instead of
surfacing the internal rollback signal as an error. -/
theorem claim_dry_run_rollback (db : DB) (rows : List NameRow) (src : Option String)
    (now : Nat) (_hv : ∀ r ∈ rows, r.variants ≠ []) :
    (bulkPublish db rows true src now none).2 = db ∧
    (∃ res, (bulkPublish db rows true src now none).1 = .ok res ∧ res.dryRun = true) ∧
    (∀ res, (bulkPublish db rows false src now none).1 = .ok res →
      (bulkPublish db rows true src now none).1 = .ok { res with dryRun := true }) := by
  have h := processRows_none db.langs now rows 0 db
  refine ⟨by simp [bulkPublish, h],
    ⟨⟨totalsOf rows.length (runRows db.langs now 0 rows db).1,
      (runRows db.langs now 0 rows db).1, true, src⟩, by simp [bulkPublish, h], rfl⟩, ?_⟩
  intro res hres
  simp only [bulkPublish, h] at hres ⊢
  simp only [Bool.false_eq_true, if_false, if_true] at hres ⊢
  injection hres with h1
  rw [← h1]

/-- Witness for claim C1 at a concrete call. -/
theorem claim_dry_run_rollback_witness :
    (∀ r ∈ [(⟨some "maria", [⟨Lang.en, "Maria"⟩], []⟩ : NameRow)], r.variants ≠ []) ∧
    ((bulkPublish ⟨⟨1, 2, 3⟩, [], 1, [], [], []⟩
        [⟨some "maria", [⟨Lang.en, "Maria"⟩], []⟩] true none 0 none).2
      = ⟨⟨1, 2, 3⟩, [], 1, [], [], []⟩ ∧
    (∃ res, (bulkPublish ⟨⟨1, 2, 3⟩, [], 1, [], [], []⟩
        [⟨some "maria", [⟨Lang.en, "Maria"⟩], []⟩] true none 0 none).1 = .ok res ∧
      res.dryRun = true) ∧
    (∀ res, (bulkPublish ⟨⟨1, 2, 3⟩, [], 1, [], [], []⟩
        [⟨some "maria", [⟨Lang.en, "Maria"⟩], []⟩] false none 0 none).1 = .ok res →
      (bulkPublish ⟨⟨1, 2, 3⟩, [], 1, [], [], []⟩
        [⟨some "maria", [⟨Lang.en, "Maria"⟩], []⟩] true none 0 none).1
        = .ok { res with dryRun := true })) :=
  ⟨by decide, claim_dry_run_rollback ⟨⟨1, 2, 3⟩, [], 1, [], [], []⟩
    [⟨some "maria", [⟨Lang.en, "Maria"⟩], []⟩] none 0 (by decide)⟩

/-- Claim C2: when processing any row of a non-dry run throws a storage
error, the call fails with that error and the state is rolled back to
exactly the pre-call state — the effects of earlier, successfully
processed rows of the same batch included. -/
theorem claim_error_atomicity (db : DB) (rows : List NameRow) (src : Option String)
    (now i : Nat) (fp : FailPoint) (h : i < rows.length) :
    bulkPublish db rows false src now (some (i, fp)) = (.error (.storage i), db) := by
  have hp := processRows_fail db.langs now i fp rows 0 db (Nat.zero_le i)
    (by simpa using h)
  simp [bulkPublish, hp]

/-- Witness for claim C2 at a concrete call: the first row fails at the
variant upsert after `ensureName` already inserted a name. -/
theorem claim_error_atomicity_witness :
    0 < [(⟨some "maria", [⟨Lang.en, "Maria"⟩], []⟩ : NameRow)].length ∧
    bulkPublish ⟨⟨1, 2, 3⟩, [], 1, [], [], []⟩
        [⟨some "maria", [⟨Lang.en, "Maria"⟩], []⟩] false none 0
        (some (0, FailPoint.atVariants))
      = (.error (.storage 0), ⟨⟨1, 2, 3⟩, [], 1, [], [], []⟩) :=
  ⟨by decide, claim_error_atomicity ⟨⟨1, 2, 3⟩, [], 1, [], [], []⟩
    [⟨some "maria", [⟨Lang.en, "Maria"⟩], []⟩] none 0 0 FailPoint.atVariants (by decide)⟩

/-- Claim C4 is a code bug: on a fresh database, publishing one row with a
single brand-new variant reports that variant in the per-row duplicates
list (and in the flattened `duplicateDetails`) although nothing existed
before the call, while the duplicate counter is 0 — the `existed` re-query
runs after the insert, so newly inserted pairs are not excluded and the
list's length disagrees with the reported count. -/
theorem claim_duplicates_misreported :
    ∃ res dbE,
      bulkPublish ⟨⟨1, 2, 3⟩, [], 1, [], [], []⟩
          [⟨some "maria", [⟨Lang.en, "Maria"⟩], []⟩] false none 0 none
        = (.ok res, dbE) ∧
      bulkPublishResponse res
        = ⟨1, 0, [⟨0, "maria", 1, DupKind.variant, some Lang.en, "Maria"⟩]⟩ ∧
      (⟨⟨1, 2, 3⟩, [], 1, [], [], []⟩ : DB).variants = [] :=
  ⟨⟨⟨1, 1, 1, 0, 0, 0⟩,
      [⟨0, "maria", 1, 1, 0, [(some Lang.en, "Maria")], 0, 0, []⟩], false, none⟩,
    ⟨⟨1, 2, 3⟩, [⟨1, "maria"⟩], 2, [⟨1, 1, "Maria"⟩], [], []⟩,
    rfl, by decide, rfl⟩

/-- A stable row's canonical key is the same at every timestamp. -/
theorem canonicalKeyOf_stable (r : NameRow) (h : stableKey r = true) (t1 t2 : Nat) :
    canonicalKeyOf r t1 = canonicalKeyOf r t2 := by
  unfold stableKey at h
  unfold canonicalKeyOf makeCanonicalKey
  cases hc : r.canonicalKey with
  | none =>
    rw [hc] at h
    have hb : ¬ slugBase r = "" := by simpa using h
    simp [hb]
  | some k =>
    rw [hc] at h
    by_cases ht : jsTrim k = ""
    · have hb : ¬ slugBase r = "" := by
        simp [ht] at h
        simpa using h
      simp [ht, hb]
    · simp [ht]

/-- Readiness of a row survives extending the state. -/
theorem rowReady_mono {langs : LangMap} {now : Nat} {db dbE : DB} {r : NameRow}
    (hext : dbExtends db dbE) (h : rowReady langs now db r) : rowReady langs now dbE r := by
  obtain ⟨hl, ⟨e1, hn⟩, ⟨e2, hv⟩, ⟨e3, hm⟩⟩ := hext
  obtain ⟨n, hfind, hvar, hmean⟩ := h
  exact ⟨n, by rw [hn]; exact find?_stable e1 hfind,
    fun i hi => by rw [hv]; exact rowMem_append_left _ _ _ (hvar i hi),
    fun i hi => by rw [hm]; exact rowMem_append_left _ _ _ (hmean i hi)⟩

/-- The failure-free loop only extends the state. -/
theorem runRows_dbExtends (langs : LangMap) (now : Nat) :
    ∀ (rows : List NameRow) (i : Nat) (db : DB),
      dbExtends db (runRows langs now i rows db).2 := by
  intro rows
  induction rows with
  | nil => intro i db; exact dbExtends_refl db
  | cons r rest ih =>
    intro i db
    simp only [runRows]
    exact dbExtends_trans (dbExtends_trans (dbExtends_trans
      (ensureName_dbExtends _ db) (upsertVariants_dbExtends _ _ _))
      (upsertMeanings_dbExtends _ _ _)) (ih _ _)

/-- After a failure-free run over stable rows, every processed row is
fully stored — at whatever timestamp the keys are recomputed. -/
theorem runRows_ready (langs : LangMap) (t1 t2 : Nat) :
    ∀ (rows : List NameRow) (i : Nat) (db : DB),
      (∀ r ∈ rows, stableKey r = true) →
      ∀ r ∈ rows, rowReady langs t2 (runRows langs t1 i rows db).2 r := by
  intro rows
  induction rows with
  | nil => intro i db _ r hr; cases hr
  | cons r0 rest ih =>
    intro i db hstable r hr
    simp only [runRows]
    rcases List.mem_cons.mp hr with rfl | hr'
    · have hkey : canonicalKeyOf r t1 = canonicalKeyOf r t2 :=
        canonicalKeyOf_stable r (hstable r (List.mem_cons_self r rest)) t1 t2
      refine rowReady_mono (runRows_dbExtends langs t1 rest (i + 1) _) ?_
      refine ⟨⟨(ensureName (canonicalKeyOf r t1) db).1, canonicalKeyOf r t1⟩, ?_, ?_, ?_⟩
      · rw [← hkey]
        exact ensureName_find (canonicalKeyOf r t1) db
      · exact fun it hit => upsertTriples_mem _ (rowItems langs r.variants) _ it hit
      · exact fun it hit => upsertTriples_mem _ (rowItems langs r.meanings) _ it hit
    · exact ih (i + 1) _ (fun x hx => hstable x (List.mem_cons_of_mem _ hx)) r hr'

/-- Processing one already-stored row changes nothing: the name is found,
both upserts insert nothing, and every item is counted a duplicate. -/
theorem runRows_cons_ready (langs : LangMap) (t2 i : Nat) (r : NameRow)
    (rest : List NameRow) (db : DB) (h : rowReady langs t2 db r) :
    ∃ nid dv dm,
      runRows langs t2 i (r :: rest) db =
        (⟨i, canonicalKeyOf r t2, nid, 0, r.variants.length, dv,
            0, r.meanings.length, dm⟩ :: (runRows langs t2 (i + 1) rest db).1,
          (runRows langs t2 (i + 1) rest db).2) := by
  obtain ⟨n, hfind, hvarmem, hmeanmem⟩ := h
  have hens : ensureName (canonicalKeyOf r t2) db = (n.id, db) := by
    unfold ensureName
    rw [hfind]
  have hv := upsertTriples_stationary n.id (rowItems langs r.variants) db.variants hvarmem
  have hm := upsertTriples_stationary n.id (rowItems langs r.meanings) db.meanings hmeanmem
  have hvar : upsertVariants n.id (rowItems langs r.variants) db
      = ((upsertTriples n.id (rowItems langs r.variants) db.variants).1, db) := by
    simp only [upsertVariants]
    rw [hv.1]
  have hmean : upsertMeanings n.id (rowItems langs r.meanings) db
      = ((upsertTriples n.id (rowItems langs r.meanings) db.meanings).1, db) := by
    simp only [upsertMeanings]
    rw [hm.1]
  refine ⟨n.id,
    (upsertTriples n.id (rowItems langs r.variants) db.variants).1.duplicates.map
      (fun d => (codeOfId langs d.language_id, d.value)),
    (upsertTriples n.id (rowItems langs r.meanings) db.meanings).1.duplicates.map
      (fun d => (codeOfId langs d.language_id, d.value)), ?_⟩
  simp only [runRows, hens, hvar, hmean, hv.2.1, hv.2.2, hm.2.1, hm.2.2]
  simp [rowItems]

/-- A failure-free run over rows that are all already stored leaves the
state unchanged and reports, per row, zero inserted items and every item a
duplicate. -/
theorem runRows_stationary (langs : LangMap) (t2 : Nat) :
    ∀ (rows : List NameRow) (i : Nat) (db : DB),
      (∀ r ∈ rows, rowReady langs t2 db r) →
      (runRows langs t2 i rows db).2 = db ∧
      (runRows langs t2 i rows db).1.map RowOutcome.variantsInserted
        = rows.map (fun _ => 0) ∧
      (runRows langs t2 i rows db).1.map RowOutcome.variantsDupCount
        = rows.map (fun r => r.variants.length) ∧
      (runRows langs t2 i rows db).1.map RowOutcome.meaningsInserted
        = rows.map (fun _ => 0) ∧
      (runRows langs t2 i rows db).1.map RowOutcome.meaningsDupCount
        = rows.map (fun r => r.meanings.length) := by
  intro rows
  induction rows with
  | nil => intro i db _; exact ⟨rfl, rfl, rfl, rfl, rfl⟩
  | cons r rest ih =>
    intro i db hready
    obtain ⟨nid, dv, dm, heq⟩ :=
      runRows_cons_ready langs t2 i r rest db (hready r (List.mem_cons_self r rest))
    obtain ⟨h2, hm1, hm2, hm3, hm4⟩ :=
      ih (i + 1) db (fun x hx => hready x (List.mem_cons_of_mem _ hx))
    rw [heq]
    exact ⟨h2, by simp [hm1], by simp [hm2], by simp [hm3], by simp [hm4]⟩

/-- Each outcome of a failure-free run balances: inserted plus duplicate
counts equal the submitted batch size, for variants and meanings. -/
theorem runRows_counts (langs : LangMap) (now : Nat) :
    ∀ (rows : List NameRow) (i : Nat) (db : DB),
      List.Forall₂ (fun (o : RowOutcome) (r : NameRow) =>
          o.variantsInserted + o.variantsDupCount = r.variants.length ∧
          o.meaningsInserted + o.meaningsDupCount = r.meanings.length)
        (runRows langs now i rows db).1 rows := by
  intro rows
  induction rows with
  | nil => intro i db; simp [runRows]
  | cons r rest ih =>
    intro i db
    simp only [runRows]
    refine List.Forall₂.cons ⟨?_, ?_⟩ (ih _ _)
    · simpa [rowItems] using upsertTriples_ins_add_dup _ (rowItems langs r.variants) _
    · simpa [rowItems] using upsertTriples_ins_add_dup _ (rowItems langs r.meanings) _

/-- The sum of a constant-zero map is zero. -/
theorem sum_map_zero {α} (l : List α) : (l.map (fun _ => (0 : Nat))).sum = 0 := by
  induction l with
  | nil => rfl
  | cons x xs ih => simp [ih]

/-- From balanced outcomes with zero total duplicates, the total inserted
count is the total batch size. -/
theorem forall2_sum_eq {outs : List RowOutcome} {rows : List NameRow}
    (f g : RowOutcome → Nat) (s : NameRow → Nat)
    (h : List.Forall₂ (fun o r => f o + g o = s r) outs rows)
    (hz : (outs.map g).sum = 0) :
    (outs.map f).sum = (rows.map s).sum := by
  induction h with
  | nil => rfl
  | cons ha hrest ih =>
    simp only [List.map_cons, List.sum_cons] at hz ⊢
    rw [ih (by omega)]
    omega

/-- Claim C3 (amended): for a batch of rows with clock-independent
canonical keys (a non-blank provided key, or a non-empty slug base — the
`name_${Date.now()}` fallback is excluded), a second identical non-dry-run
publish right after a first one that reported no duplicates leaves the
stored data unchanged and reports zero inserted items and exactly the
first call's inserted counts as duplicates, for variants and meanings
alike; no error is raised. -/
theorem claim_republish_idempotent (db : DB) (rows : List NameRow) (src : Option String)
    (t1 t2 : Nat) (hstable : ∀ r ∈ rows, stableKey r = true)
    (res1 : BulkPublishResult) (db1 : DB)
    (h1 : bulkPublish db rows false src t1 none = (.ok res1, db1))
    (hzv : res1.totals.variantsDuplicates = 0)
    (hzm : res1.totals.meaningsDuplicates = 0) :
    ∃ res2, bulkPublish db1 rows false src t2 none = (.ok res2, db1) ∧
      res2.totals.variantsInserted = 0 ∧
      res2.totals.variantsDuplicates = res1.totals.variantsInserted ∧
      res2.totals.meaningsInserted = 0 ∧
      res2.totals.meaningsDuplicates = res1.totals.meaningsInserted := by
  have hp1 := processRows_none db.langs t1 rows 0 db
  simp only [bulkPublish, hp1, Bool.false_eq_true, if_false] at h1
  injection h1 with ha hb
  injection ha with ha2
  have hext := runRows_dbExtends db.langs t1 rows 0 db
  have hlangs : db1.langs = db.langs := by rw [← hb]; exact hext.1
  have hready : ∀ r ∈ rows, rowReady db1.langs t2 db1 r := by
    rw [hlangs, ← hb]
    exact runRows_ready db.langs t1 t2 rows 0 db hstable
  have hp2 := processRows_none db1.langs t2 rows 0 db1
  obtain ⟨hs2, hm1, hm2, hm3, hm4⟩ := runRows_stationary db1.langs t2 rows 0 db1 hready
  have hf2 := runRows_counts db.langs t1 rows 0 db
  rw [← ha2] at hzv hzm
  simp only [totalsOf] at hzv hzm
  have hvtot : ((runRows db.langs t1 0 rows db).1.map RowOutcome.variantsInserted).sum
      = (rows.map (fun r => r.variants.length)).sum :=
    forall2_sum_eq _ _ _ (List.Forall₂.imp (fun _ _ h => h.1) hf2) hzv
  have hmtot : ((runRows db.langs t1 0 rows db).1.map RowOutcome.meaningsInserted).sum
      = (rows.map (fun r => r.meanings.length)).sum :=
    forall2_sum_eq _ _ _ (List.Forall₂.imp (fun _ _ h => h.2) hf2) hzm
  refine ⟨⟨totalsOf rows.length (runRows db1.langs t2 0 rows db1).1,
    (runRows db1.langs t2 0 rows db1).1, false, src⟩, ?_, ?_, ?_, ?_, ?_⟩
  · simp only [bulkPublish, hp2, Bool.false_eq_true, if_false]
    rw [hs2]
  · show (totalsOf rows.length (runRows db1.langs t2 0 rows db1).1).variantsInserted = 0
    simp only [totalsOf]
    rw [hm1]
    exact sum_map_zero rows
  · show (totalsOf rows.length (runRows db1.langs t2 0 rows db1).1).variantsDuplicates
      = res1.totals.variantsInserted
    simp only [totalsOf]
    rw [hm2, ← ha2]
    simp only [totalsOf]
    exact hvtot.symm
  · show (totalsOf rows.length (runRows db1.langs t2 0 rows db1).1).meaningsInserted = 0
    simp only [totalsOf]
    rw [hm3]
    exact sum_map_zero rows
  · show (totalsOf rows.length (runRows db1.langs t2 0 rows db1).1).meaningsDuplicates
      = res1.totals.meaningsInserted
    simp only [totalsOf]
    rw [hm4, ← ha2]
    simp only [totalsOf]
    exact hmtot.symm

/-- The unamended claim C3 fails: a row with no canonical key and no
alphanumeric character in its variants gets the `name_${Date.now()}`
fallback key, so re-publishing the identical batch at a later timestamp
creates a second name and re-inserts the variant — the second call reports
1 inserted and 0 duplicates instead of 0 and 1. -/
theorem claim_republish_counterexample :
    ∃ res1 db1 res2 db2,
      bulkPublish ⟨⟨1, 2, 3⟩, [], 1, [], [], []⟩
          [⟨none, [⟨Lang.en, "!"⟩], []⟩] false none 0 none = (.ok res1, db1) ∧
      bulkPublish db1 [⟨none, [⟨Lang.en, "!"⟩], []⟩] false none 1 none = (.ok res2, db2) ∧
      res1.totals.variantsInserted = 1 ∧ res1.totals.variantsDuplicates = 0 ∧
      res2.totals.variantsInserted = 1 ∧ res2.totals.variantsDuplicates = 0 := by
  have hs : slugBase ⟨none, [⟨Lang.en, "!"⟩], []⟩ = "" := by decide
  have h0 : jsDigits 0 = ['0'] := by
    unfold jsDigits
    rw [natDigitsRev]
    decide
  have h1 : jsDigits 1 = ['1'] := by
    unfold jsDigits
    rw [natDigitsRev]
    decide
  have hk0 : canonicalKeyOf ⟨none, [⟨Lang.en, "!"⟩], []⟩ 0 = "name_0" := by
    simp only [canonicalKeyOf, makeCanonicalKey, hs, h0]
    decide
  have hk1 : canonicalKeyOf ⟨none, [⟨Lang.en, "!"⟩], []⟩ 1 = "name_1" := by
    simp only [canonicalKeyOf, makeCanonicalKey, hs, h1]
    decide
  refine ⟨⟨⟨1, 1, 1, 0, 0, 0⟩, [⟨0, "name_0", 1, 1, 0, [(some Lang.en, "!")], 0, 0, []⟩],
      false, none⟩,
    ⟨⟨1, 2, 3⟩, [⟨1, "name_0"⟩], 2, [⟨1, 1, "!"⟩], [], []⟩,
    ⟨⟨1, 1, 1, 0, 0, 0⟩, [⟨0, "name_1", 2, 1, 0, [(some Lang.en, "!")], 0, 0, []⟩],
      false, none⟩,
    ⟨⟨1, 2, 3⟩, [⟨1, "name_0"⟩, ⟨2, "name_1"⟩], 3, [⟨1, 1, "!"⟩, ⟨2, 1, "!"⟩], [], []⟩,
    ?_, ?_, rfl, rfl, rfl, rfl⟩
  · simp only [bulkPublish, processRows, hk0]
    rfl
  · simp only [bulkPublish, processRows, hk1]
    rfl

/-- Witness for the amended claim C3 at a concrete stable batch. -/
theorem claim_republish_idempotent_witness :
    (∀ r ∈ [(⟨some "maria", [⟨Lang.en, "Maria"⟩, ⟨Lang.ta, "T"⟩],
        [⟨Lang.en, "beloved"⟩]⟩ : NameRow)], stableKey r = true) ∧
    bulkPublish ⟨⟨1, 2, 3⟩, [], 1, [], [], []⟩
        [⟨some "maria", [⟨Lang.en, "Maria"⟩, ⟨Lang.ta, "T"⟩], [⟨Lang.en, "beloved"⟩]⟩]
        false none 5 none
      = (.ok ⟨⟨1, 1, 2, 0, 1, 0⟩,
          [⟨0, "maria", 1, 2, 0, [(some Lang.en, "Maria"), (some Lang.ta, "T")],
            1, 0, [(some Lang.en, "beloved")]⟩], false, none⟩,
        ⟨⟨1, 2, 3⟩, [⟨1, "maria"⟩], 2, [⟨1, 1, "Maria"⟩, ⟨1, 2, "T"⟩],
          [⟨1, 1, "beloved"⟩], []⟩) ∧
    (∃ res2, bulkPublish
        ⟨⟨1, 2, 3⟩, [⟨1, "maria"⟩], 2, [⟨1, 1, "Maria"⟩, ⟨1, 2, "T"⟩],
          [⟨1, 1, "beloved"⟩], []⟩
        [⟨some "maria", [⟨Lang.en, "Maria"⟩, ⟨Lang.ta, "T"⟩], [⟨Lang.en, "beloved"⟩]⟩]
        false none 7 none
      = (.ok res2,
        ⟨⟨1, 2, 3⟩, [⟨1, "maria"⟩], 2, [⟨1, 1, "Maria"⟩, ⟨1, 2, "T"⟩],
          [⟨1, 1, "beloved"⟩], []⟩) ∧
      res2.totals.variantsInserted = 0 ∧ res2.totals.variantsDuplicates = 2 ∧
      res2.totals.meaningsInserted = 0 ∧ res2.totals.meaningsDuplicates = 1) :=
  ⟨by decide, rfl,
    claim_republish_idempotent ⟨⟨1, 2, 3⟩, [], 1, [], [], []⟩
      [⟨some "maria", [⟨Lang.en, "Maria"⟩, ⟨Lang.ta, "T"⟩], [⟨Lang.en, "beloved"⟩]⟩]
      none 5 7 (by decide) _ _ rfl (by decide) (by decide)⟩

end NamesSearch
